import Mathlib

set_option maxHeartbeats 1000000
set_option maxRecDepth 4000

/-!
Shallow embedding of the `textdocument` Go package (redexp/textdocument).

Text is modelled as a list of bytes (`List Nat`, each value < 256 in practice).
UTF-8 decoding mirrors Go's `utf8.DecodeRuneInString` / `utf8.DecodeLastRuneInString`:
an invalid encoding (or the literal replacement character U+FFFD) decodes to
`0xFFFD`, which the package treats as a "rune error".  Machine integers
(`uint32` in Go) are modelled as `Nat`; the one place where wrap-around
subtraction is observable (`ConvertHighlightCaptures`) uses an explicit
`% 2^32` wrapping subtraction.

The external tree-sitter parser is out of scope of the repository; it is
modelled as an abstract capability (`Sitter`) over an abstract tree type,
exactly as the package consumes it: `parse` may fail, `edit` records an edit
on a tree, `captures` runs the highlight query.
-/

namespace TextDoc

/-- Decode the first UTF-8 rune of a byte list, Go `utf8.DecodeRuneInString`
semantics: returns `(rune, size)`; empty input gives `(0xFFFD, 0)`, an invalid
or incomplete encoding gives `(0xFFFD, 1)`. -/
def decodeRune : List Nat → Nat × Nat
  | [] => (0xFFFD, 0)
  | b0 :: rest =>
    if b0 < 0x80 then (b0, 1)
    else if b0 < 0xC2 then (0xFFFD, 1)
    else if b0 < 0xE0 then
      match rest with
      | b1 :: _ =>
        if 0x80 ≤ b1 ∧ b1 < 0xC0 then ((b0 - 0xC0) * 0x40 + (b1 - 0x80), 2)
        else (0xFFFD, 1)
      | [] => (0xFFFD, 1)
    else if b0 < 0xF0 then
      match rest with
      | b1 :: b2 :: _ =>
        if (if b0 = 0xE0 then 0xA0 ≤ b1 ∧ b1 < 0xC0
            else if b0 = 0xED then 0x80 ≤ b1 ∧ b1 < 0xA0
            else 0x80 ≤ b1 ∧ b1 < 0xC0) ∧ 0x80 ≤ b2 ∧ b2 < 0xC0 then
          ((b0 - 0xE0) * 0x1000 + (b1 - 0x80) * 0x40 + (b2 - 0x80), 3)
        else (0xFFFD, 1)
      | _ => (0xFFFD, 1)
    else if b0 < 0xF5 then
      match rest with
      | b1 :: b2 :: b3 :: _ =>
        if (if b0 = 0xF0 then 0x90 ≤ b1 ∧ b1 < 0xC0
            else if b0 = 0xF4 then 0x80 ≤ b1 ∧ b1 < 0x90
            else 0x80 ≤ b1 ∧ b1 < 0xC0) ∧ (0x80 ≤ b2 ∧ b2 < 0xC0) ∧
            (0x80 ≤ b3 ∧ b3 < 0xC0) then
          ((b0 - 0xF0) * 0x40000 + (b1 - 0x80) * 0x1000 + (b2 - 0x80) * 0x40 + (b3 - 0x80), 4)
        else (0xFFFD, 1)
      | _ => (0xFFFD, 1)
    else (0xFFFD, 1)

/-- Go `utf8.RuneStart`: a byte that is not a UTF-8 continuation byte. -/
def runeStart (b : Nat) : Bool := ¬ (0x80 ≤ b ∧ b < 0xC0)

/-- Scan downwards from `j` to `lim` for the first rune-start byte. -/
def lastRuneStartIdx (s : List Nat) (lim : Nat) : Nat → Option Nat
  | j =>
    if j < lim then none
    else if runeStart (s.getD j 0) then some j
    else if h : j = 0 then none
    else lastRuneStartIdx s lim (j - 1)
  termination_by j => j
  decreasing_by omega

/-- The index from which `utf8.DecodeLastRuneInString` decodes: scan back at
most 4 bytes for a rune-start byte; if none is found the scan leaves the index
one below the scan limit (clamped at 0). -/
def decodeLastRuneStart (s : List Nat) : Nat :=
  match lastRuneStartIdx s (s.length - 4) (s.length - 2) with
  | some k => k
  | none => if s.length ≤ 4 then 0 else s.length - 5

/-- Decode the last UTF-8 rune of a byte list, Go `utf8.DecodeLastRuneInString`
semantics. -/
def decodeLastRune (s : List Nat) : Nat × Nat :=
  if s.length = 0 then (0xFFFD, 0)
  else if s.getD (s.length - 1) 0 < 0x80 then (s.getD (s.length - 1) 0, 1)
  else
    let d := decodeRune (s.drop (decodeLastRuneStart s))
    if decodeLastRuneStart s + d.2 ≠ s.length then (0xFFFD, 1) else d

/-- Split a byte list at each newline byte (10), Go `strings.Split(text, "\n")`. -/
def splitOnNl : List Nat → List (List Nat)
  | [] => [[]]
  | b :: rest =>
    if b = 10 then [] :: splitOnNl rest
    else
      match splitOnNl rest with
      | l :: ls => (b :: l) :: ls
      | [] => [[b]]

/-- Running start offsets of the split pieces: `Lines[i] = offset`,
`offset += 1 + len(line)` (the loop body of `UpdateLines`). -/
def lineOffsets : List (List Nat) → Nat → List Nat
  | [], _ => []
  | l :: ls, offset => offset :: lineOffsets ls (offset + 1 + l.length)

/-- The line-start index computed by `UpdateLines` for a given text. -/
def linesOf (text : List Nat) : List Nat := lineOffsets (splitOnNl text) 0

structure Position where
  line : Nat
  character : Nat
deriving DecidableEq, Repr

structure Point where
  row : Nat
  column : Nat
deriving DecidableEq, Repr

structure lineOffsetColumn where
  line : Nat
  offset : Nat
  column : Nat
deriving DecidableEq, Repr

/-- The error kinds the package can return (Go returns formatted error
strings; only the kind is modelled). -/
inductive Err where
  | lineOutOfRange
  | characterOutOfRange
  | byteIndexOutOfRange
  | runeError
  | parseError
deriving DecidableEq, Repr

/-- A highlight capture: the captured node's span plus its capture-category
index (`sitter.QueryCapture` as the package uses it). -/
structure QueryCapture where
  startPoint : Point
  endPoint : Point
  index : Nat
deriving DecidableEq, Repr

structure TokenType where
  type : Nat
  modifiers : Nat
deriving DecidableEq, Repr

structure Range where
  start : Position
  stop : Position
deriving DecidableEq, Repr

structure ChangeEvent where
  range : Range
  text : List Nat
deriving DecidableEq, Repr

/-- `sitter.EditInput`: the edit description handed to the external parser. -/
structure EditInput where
  startIndex : Nat
  oldEndIndex : Nat
  newEndIndex : Nat
  startPoint : Point
  oldEndPoint : Point
  newEndPoint : Point
deriving DecidableEq, Repr

/-- The document state.  `τ` is the abstract syntax-tree type of the external
parser.  `hasParser` models `Parser != nil`, `hasHighlightQuery` models
`HighlightQuery != nil`. -/
structure TextDocument (τ : Type) where
  Text : List Nat
  TextLength : Nat
  Lines : List Nat
  Tree : Option τ
  hasParser : Bool
  hasHighlightQuery : Bool
  HighlightCaptures : List QueryCapture
  lastLineOffset : lineOffsetColumn

/-- The external tree-sitter capability, as consumed by the package:
`parse prev text` returns the new tree or fails (`none`); `edit` records an
edit description on a tree; `captures` runs the configured highlight query
over a tree (ignore-filtering included). -/
structure Sitter (τ : Type) where
  parse : Option τ → List Nat → Option τ
  hasChanges : τ → Bool
  edit : τ → EditInput → τ
  captures : τ → List QueryCapture

variable {τ : Type}

/-- `UpdateLines`: rebuild `Lines` and `TextLength` from `Text`, reset the
position cache. -/
def UpdateLines (doc : TextDocument τ) : TextDocument τ :=
  { doc with Lines := linesOf doc.Text, TextLength := doc.Text.length,
             lastLineOffset := ⟨0, 0, 0⟩ }

/-- `NewTextDocument`. -/
def NewTextDocument (text : List Nat) : TextDocument τ :=
  UpdateLines { Text := text, TextLength := 0, Lines := [], Tree := none,
                hasParser := false, hasHighlightQuery := false,
                HighlightCaptures := [], lastLineOffset := ⟨0, 0, 0⟩ }

/-- The codepoint-counting loop of `PositionToByteIndex`: `n` characters left
to walk, current byte `offset`.  After each decoded rune the Go code errors
when `offset > max || (offset == max && character < pos.Character)`. -/
def ptbiWalk (text : List Nat) (maxB : Nat) : Nat → Nat → Except Err Nat
  | 0, offset => .ok offset
  | n + 1, offset =>
    let d := decodeRune (text.drop offset)
    if d.1 = 0xFFFD then .error .runeError
    else if offset + d.2 > maxB ∨ (offset + d.2 = maxB ∧ 0 < n) then .error .characterOutOfRange
    else ptbiWalk text maxB n (offset + d.2)

/-- `PositionToByteIndex`. -/
def PositionToByteIndex (doc : TextDocument τ) (pos : Position) : Except Err Nat :=
  let linesCount := doc.Lines.length
  if pos.line ≥ linesCount then .error .lineOutOfRange
  else
    let offset := doc.Lines.getD pos.line 0
    let maxB := if pos.line + 1 < linesCount then doc.Lines.getD (pos.line + 1) 0 - 1
                else doc.TextLength
    ptbiWalk doc.Text maxB pos.character offset

/-- The descending scan of `ByteIndexLine`: start from the last line index,
stop at the first (largest) line whose start is `≤ index`, or at line 0. -/
def bilWalk (lines : List Nat) (index : Nat) : Nat → Nat
  | 0 => 0
  | l + 1 => if lines.getD (l + 1) 0 ≤ index then l + 1 else bilWalk lines index l

/-- `ByteIndexLine`. -/
def ByteIndexLine (doc : TextDocument τ) (index : Nat) : Except Err Nat :=
  if index > doc.TextLength then .error .byteIndexOutOfRange
  else .ok (bilWalk doc.Lines index (doc.Lines.length - 1))

/-- `LineMinMaxByteIndex`. -/
def LineMinMaxByteIndex (doc : TextDocument τ) (line : Nat) : Except Err (Nat × Nat) :=
  if line ≥ doc.Lines.length then .error .lineOutOfRange
  else .ok (doc.Lines.getD line 0,
    if line + 1 < doc.Lines.length then doc.Lines.getD (line + 1) 0 - 1 else doc.TextLength)

theorem decodeRune_size_pos_of_ne_nil (s : List Nat) (h : s ≠ []) :
    0 < (decodeRune s).2 := by
  cases s with
  | nil => exact absurd rfl h
  | cons b0 rest =>
    rw [decodeRune.eq_def]
    repeat' split
    all_goals simp_all

theorem decodeRune_size_pos (s : List Nat) (h : (decodeRune s).1 ≠ 0xFFFD) :
    0 < (decodeRune s).2 := by
  cases s with
  | nil => exact absurd rfl h
  | cons b0 rest => exact decodeRune_size_pos_of_ne_nil _ (by simp)

/-- The column-counting loop of `LineByteIndexToPosition`: walk from byte
`offset` (codepoint column `column`) until the byte offset reaches `target`;
crossing `maxB` is an error. -/
def lbiWalk (text : List Nat) (maxB target : Nat) (offset column : Nat) :
    Except Err (Nat × Nat) :=
  if h : offset ≥ target then .ok (offset, column)
  else
    let d := decodeRune (text.drop offset)
    if h2 : d.1 = 0xFFFD then .error .runeError
    else if offset + d.2 > maxB then .error .byteIndexOutOfRange
    else lbiWalk text maxB target (offset + d.2) (column + 1)
  termination_by target - offset
  decreasing_by
    have := decodeRune_size_pos (text.drop offset) h2
    omega

/-- `LineByteIndexToPosition` (also updates the single-entry position cache on
success; the updated document is returned alongside the position). -/
def LineByteIndexToPosition (doc : TextDocument τ) (line index : Nat) :
    Except Err (Position × TextDocument τ) :=
  match LineMinMaxByteIndex doc line with
  | .error e => .error e
  | .ok (offset0, maxB) =>
    let target := index + offset0
    let st : Nat × Nat :=
      if doc.lastLineOffset.line = line ∧ doc.lastLineOffset.offset ≤ target then
        (doc.lastLineOffset.offset, doc.lastLineOffset.column)
      else (offset0, 0)
    match lbiWalk doc.Text maxB target st.1 st.2 with
    | .error e => .error e
    | .ok (offset, column) =>
      .ok (⟨line, column⟩, { doc with lastLineOffset := ⟨line, offset, column⟩ })

/-- `ByteIndexToPosition`. -/
def ByteIndexToPosition (doc : TextDocument τ) (index : Nat) :
    Except Err (Position × TextDocument τ) :=
  match ByteIndexLine doc index with
  | .error e => .error e
  | .ok line => LineByteIndexToPosition doc line (index - doc.Lines.getD line 0)

/-- `ByteIndexToPoint`. -/
def ByteIndexToPoint (doc : TextDocument τ) (index : Nat) : Except Err Point :=
  match ByteIndexLine doc index with
  | .error e => .error e
  | .ok line => .ok ⟨line, index - doc.Lines.getD line 0⟩

/-- `PositionToPoint`. -/
def PositionToPoint (doc : TextDocument τ) (pos : Position) : Except Err Point :=
  match PositionToByteIndex doc pos with
  | .error e => .error e
  | .ok index => .ok ⟨pos.line, index - doc.Lines.getD pos.line 0⟩

/-- `PointToPosition`. -/
def PointToPosition (doc : TextDocument τ) (point : Point) :
    Except Err (Position × TextDocument τ) :=
  LineByteIndexToPosition doc point.row point.column

/-- `UpdateTree`: ask the external parser for a new tree (passing the current
tree as reuse hint); on failure the previous tree is restored and the error
returned; with no parser configured this is a no-op. -/
def UpdateTree (sit : Sitter τ) (doc : TextDocument τ) : TextDocument τ × Option Err :=
  if doc.hasParser = false then (doc, none)
  else
    match sit.parse doc.Tree doc.Text with
    | none => (doc, some .parseError)
    | some t => ({ doc with Tree := some t }, none)

/-- `UpdateHighlightCaptures`: refresh the capture index from the current tree
when both a tree and a highlight query are present. -/
def UpdateHighlightCaptures (sit : Sitter τ) (doc : TextDocument τ) : TextDocument τ :=
  match doc.Tree with
  | none => doc
  | some t =>
    if doc.hasHighlightQuery then { doc with HighlightCaptures := sit.captures t } else doc

/-- `ChangeCtx`: apply a single-range text replacement; convert the range with
the pre-edit line index, splice the text, rebuild the line index, describe the
edit to the tree and re-parse. -/
def ChangeCtx (sit : Sitter τ) (doc : TextDocument τ) (e : ChangeEvent) :
    TextDocument τ × Option Err :=
  match PositionToByteIndex doc e.range.start with
  | .error err => (doc, some err)
  | .ok start =>
    match PositionToByteIndex doc e.range.stop with
    | .error err => (doc, some err)
    | .ok stop =>
      match PositionToPoint doc e.range.start with
      | .error err => (doc, some err)
      | .ok startPoint =>
        match PositionToPoint doc e.range.stop with
        | .error err => (doc, some err)
        | .ok oldEndPoint =>
          let doc1 := UpdateLines
            { doc with Text := doc.Text.take start ++ e.text ++ doc.Text.drop stop }
          match doc1.Tree with
          | none => UpdateTree sit doc1
          | some t =>
            let newEndIndex := start + e.text.length
            match ByteIndexToPoint doc1 newEndIndex with
            | .error err => (doc1, some err)
            | .ok newEndPoint =>
              let doc2 := { doc1 with Tree := some (sit.edit t
                ⟨start, stop, newEndIndex, startPoint, oldEndPoint, newEndPoint⟩) }
              match UpdateTree sit doc2 with
              | (doc3, some err) => (doc3, some err)
              | (doc3, none) => (UpdateHighlightCaptures sit doc3, none)

/-- `SetTextCtx`. -/
def SetTextCtx (sit : Sitter τ) (doc : TextDocument τ) (text : List Nat) :
    TextDocument τ × Option Err :=
  UpdateTree sit (UpdateLines { doc with Text := text })

theorem decodeRune_size_zero (s : List Nat) (h : (decodeRune s).2 = 0) :
    (decodeRune s).1 = 0xFFFD := by
  cases s with
  | nil => rfl
  | cons b0 rest =>
    have := decodeRune_size_pos_of_ne_nil (b0 :: rest) (by simp)
    omega

theorem decodeLastRune_eq_of_size_zero (s : List Nat) (c k : Nat)
    (hE : decodeLastRune s = (c, k)) (hk : k = 0) : c = 0xFFFD := by
  rw [decodeLastRune] at hE
  dsimp only at hE
  split at hE
  · injection hE with h1 h2; omega
  · split at hE
    · injection hE with h1 h2; omega
    · split at hE
      · injection hE with h1 h2; omega
      · have h1 := congrArg Prod.fst hE
        have h2 := congrArg Prod.snd hE
        simp only at h1 h2
        rw [← h1]
        exact decodeRune_size_zero _ (by rw [h2, hk])

theorem decodeLastRune_size_zero (s : List Nat) (h : (decodeLastRune s).2 = 0) :
    (decodeLastRune s).1 = 0xFFFD :=
  decodeLastRune_eq_of_size_zero s (decodeLastRune s).1 (decodeLastRune s).2 rfl h

theorem decodeLastRune_size_pos (s : List Nat) (h : (decodeLastRune s).1 ≠ 0xFFFD) :
    0 < (decodeLastRune s).2 :=
  Nat.pos_of_ne_zero fun h0 => h (decodeLastRune_size_zero s h0)

/-- `GetNonSpaceTextAroundPosition`'s backward loop: walk left from byte
`start` until the line start `minB` or a space rune; the delimiting space is
not included. -/
def gnstStart (text : List Nat) (minB : Nat) (start : Nat) : Except Err Nat :=
  if h : start ≤ minB then .ok minB
  else
    let d := decodeLastRune ((text.drop minB).take (start - minB))
    if h2 : d.1 = 0xFFFD then .error .runeError
    else if d.1 = 32 then .ok start
    else gnstStart text minB (start - d.2)
  termination_by start
  decreasing_by
    have := decodeLastRune_size_pos _ h2
    omega

/-- `GetNonSpaceTextAroundPosition`'s forward loop: walk right from byte
`endB` until the line bound `maxB` or a space rune; the delimiting space is
not included. -/
def gnstEnd (text : List Nat) (maxB : Nat) (endB : Nat) : Except Err Nat :=
  if h : endB ≥ maxB then .ok maxB
  else
    let d := decodeRune ((text.drop endB).take (maxB - endB))
    if h2 : d.1 = 0xFFFD then .error .runeError
    else if d.1 = 32 then .ok endB
    else gnstEnd text maxB (endB + d.2)
  termination_by maxB - endB
  decreasing_by
    have := decodeRune_size_pos _ h2
    omega

/-- `GetNonSpaceTextAroundPosition`. -/
def GetNonSpaceTextAroundPosition (doc : TextDocument τ) (pos : Position) :
    Except Err (List Nat) :=
  match PositionToByteIndex doc pos with
  | .error e => .error e
  | .ok endB =>
    match LineMinMaxByteIndex doc pos.line with
    | .error e => .error e
    | .ok (minB, maxB) =>
      match gnstStart doc.Text minB endB with
      | .error e => .error e
      | .ok s =>
        match gnstEnd doc.Text maxB endB with
        | .error e => .error e
        | .ok e2 => .ok ((doc.Text.drop s).take (e2 - s))

/-- `CompareNodeWithRange` on the node's span (start point, end point) and a
range of points.  Result: -1 node before range, 0 node inside range,
1 node overlaps range, 2 node after range. -/
def CompareNodeWithRange (start stop rangeStart rangeEnd : Point) : Int :=
  if (rangeStart.row = rangeEnd.row ∧ rangeStart.column = rangeEnd.column) ∧
      ((start.row = rangeStart.row ∧ start.column = rangeStart.column) ∨
        (stop.row = rangeEnd.row ∧ stop.column = rangeEnd.column)) then 1
  else if stop.row < rangeStart.row ∨
      (rangeStart.row = stop.row ∧ stop.column ≤ rangeStart.column) then -1
  else if (rangeStart.row < start.row ∨
        rangeStart.row = start.row ∧ rangeStart.column ≤ start.column) ∧
      (rangeEnd.row > stop.row ∨ rangeEnd.row = stop.row ∧ rangeEnd.column ≥ stop.column) then 0
  else if rangeEnd.row < start.row ∨
      (rangeEnd.row = start.row ∧ rangeEnd.column ≤ start.column) then 2
  else 1

/-- Wrapping `uint32` subtraction: Go's `a - b` on `proto.UInteger` values. -/
def usub (a b : Nat) : Nat := (a + (2 ^ 32 - b % 2 ^ 32)) % 2 ^ 32

/-- The loop body of `ConvertHighlightCaptures`: convert each capture's start
and end point to positions (threading the document's position cache), build
the five-value record, delta-encoding line/column against the previous
capture's start position.  `legend[cap.Index]` (a panic when out of range in
Go) is modelled with `getD`. -/
def chcLoop (legend : List TokenType) (doc : TextDocument τ) (prev : Option Position) :
    List QueryCapture → Except Err (List Nat × TextDocument τ)
  | [] => .ok ([], doc)
  | cap :: rest =>
    match PointToPosition doc cap.startPoint with
    | .error e => .error e
    | .ok (start, doc1) =>
      match PointToPosition doc1 cap.endPoint with
      | .error e => .error e
      | .ok (stop, doc2) =>
        let tt := legend.getD cap.index ⟨0, 0⟩
        let len := usub stop.character start.character
        let dl := match prev with
          | none => start.line
          | some p => usub start.line p.line
        let dc := match prev with
          | none => start.character
          | some p => if usub start.line p.line = 0 then usub start.character p.character
                      else start.character
        match chcLoop legend doc2 (some start) rest with
        | .error e => .error e
        | .ok (ts, doc3) => .ok (dl :: dc :: len :: tt.type :: tt.modifiers :: ts, doc3)

/-- `ConvertHighlightCaptures`. -/
def ConvertHighlightCaptures (doc : TextDocument τ) (legend : List TokenType) :
    Except Err (List Nat × TextDocument τ) :=
  chcLoop legend doc none doc.HighlightCaptures

/-- The absolute (start, end) positions of a capture list, converted exactly
as `ConvertHighlightCaptures` converts them (same threading of the position
cache), without any encoding. -/
def capturePositions (doc : TextDocument τ) :
    List QueryCapture → Except Err (List (Position × Position) × TextDocument τ)
  | [] => .ok ([], doc)
  | cap :: rest =>
    match PointToPosition doc cap.startPoint with
    | .error e => .error e
    | .ok (start, doc1) =>
      match PointToPosition doc1 cap.endPoint with
      | .error e => .error e
      | .ok (stop, doc2) =>
        match capturePositions doc2 rest with
        | .error e => .error e
        | .ok (ps, doc3) => .ok ((start, stop) :: ps, doc3)

/-- The delta encoding as the specification words it: five values per
capture; the first capture's line/column absolute; a later capture's line
delta-encoded against the previous capture's start line, its column
delta-encoded against the previous capture's start column only when both
start on the same line (absolute otherwise); type/modifiers looked up from
the legend at the capture's category index.  Subtraction is `uint32`
subtraction (`usub`), as all wire values are unsigned 32-bit. -/
def convertSpec (legend : List TokenType) :
    Option Position → List ((Position × Position) × Nat) → List Nat
  | _, [] => []
  | prev, ((start, stop), cat) :: rest =>
    let tt := legend.getD cat ⟨0, 0⟩
    let dl := match prev with
      | none => start.line
      | some p => usub start.line p.line
    let dc := match prev with
      | none => start.character
      | some p => if usub start.line p.line = 0 then usub start.character p.character
                  else start.character
    dl :: dc :: usub stop.character start.character :: tt.type :: tt.modifiers ::
      convertSpec legend (some start) rest

/-- The chain of byte offsets visited by decoding `n` whole UTF-8 runes
starting at byte `offset`; `none` when decoding hits an invalid encoding. -/
def walkN (text : List Nat) : Nat → Nat → Option Nat
  | offset, 0 => some offset
  | offset, n + 1 =>
    let d := decodeRune (text.drop offset)
    if d.1 = 0xFFFD then none else walkN text (offset + d.2) n

/-- Joining the pieces of a newline split back with the separator. -/
def unsplit : List (List Nat) → List Nat
  | [] => []
  | [p] => p
  | p :: q :: rest => p ++ 10 :: unsplit (q :: rest)

/-- The upper byte bound of line `l`: one before the next line's start, or the
total text length for the last line (the `max` computed by
`PositionToByteIndex` and `LineMinMaxByteIndex`). -/
def lineMaxD (doc : TextDocument τ) (l : Nat) : Nat :=
  if l + 1 < doc.Lines.length then doc.Lines.getD (l + 1) 0 - 1 else doc.TextLength

/-- The document with the position cache in its reset state. -/
def resetCache (doc : TextDocument τ) : TextDocument τ :=
  { doc with lastLineOffset := ⟨0, 0, 0⟩ }

/-- The position cache is valid: it names a real line and its offset/column
pair lies on that line's decode chain, within the line's byte bound.  The
reset state `⟨0, 0, 0⟩` satisfies this, and every successful walk re-
establishes it. -/
def CacheOk (doc : TextDocument τ) : Prop :=
  doc.lastLineOffset.line < doc.Lines.length ∧
  walkN doc.Text (doc.Lines.getD doc.lastLineOffset.line 0) doc.lastLineOffset.column
    = some doc.lastLineOffset.offset ∧
  doc.lastLineOffset.offset ≤ lineMaxD doc doc.lastLineOffset.line

/-- Document well-formedness: the line index and text length agree with the
text (as `UpdateLines` establishes) and the position cache is valid.  Every
document built by `NewTextDocument` / `SetTextCtx` / `ChangeCtx` satisfies
this. -/
def Wf (doc : TextDocument τ) : Prop :=
  doc.Lines = linesOf doc.Text ∧ doc.TextLength = doc.Text.length ∧ CacheOk doc

/-- The byte-level description of `GetNonSpaceTextAroundPosition`'s result:
within the line's bytes, extend from the position's relative byte offset
leftwards and rightwards up to (excluding) the nearest space byte, or to the
line's bounds. -/
def spanAround (lineBytes : List Nat) (rel : Nat) : List Nat :=
  ((lineBytes.take rel).reverse.takeWhile (fun b => b ≠ 32)).reverse ++
    (lineBytes.drop rel).takeWhile (fun b => b ≠ 32)

/-- The running example document text `"⌘sd\nqwer\n⌘xc"` (UTF-8 bytes;
`⌘` = U+2318 = E2 8C 98). -/
def sampleText : List Nat := [226, 140, 152, 115, 100, 10, 113, 119, 101, 114, 10, 226, 140, 152, 120, 99]

/-- The running example document. -/
def sampleDoc : TextDocument Unit := NewTextDocument sampleText

/-- The running example document with a trailing newline. -/
def sampleDocNl : TextDocument Unit := NewTextDocument (sampleText ++ [10])

/-- A trivial sitter capability whose parse always fails. -/
def sitFail : Sitter Unit :=
  ⟨fun _ _ => none, fun _ => false, fun t _ => t, fun _ => []⟩

/-- The sample document with a parser configured and a tree present. -/
def sampleDocParsed : TextDocument Unit :=
  { sampleDoc with Tree := some (), hasParser := true }

/-- Two lines of ASCII digits, for the token-encoding example. -/
def digitsText : List Nat :=
  [48, 49, 50, 51, 52, 53, 54, 55, 56, 57, 10, 48, 49, 50, 51, 52, 53, 54, 55, 56, 57]

/-- A document with three highlight captures starting at (0,4), (0,6) and
(1,4) — the spec's encoding example. -/
def docEnc : TextDocument Unit :=
  { NewTextDocument digitsText with
    HighlightCaptures := [⟨⟨0, 4⟩, ⟨0, 5⟩, 0⟩, ⟨⟨0, 6⟩, ⟨0, 7⟩, 1⟩, ⟨⟨1, 4⟩, ⟨1, 6⟩, 0⟩] }

/-- A two-entry legend for the token-encoding example. -/
def legendEnc : List TokenType := [⟨3, 1⟩, ⟨5, 2⟩]

/-- The document `"asd\nwer zxc"` from the package's own tests. -/
def docNS : TextDocument Unit :=
  NewTextDocument [97, 115, 100, 10, 119, 101, 114, 32, 122, 120, 99]

/-! ### Line-index lemmas -/

theorem splitOnNl_ne_nil (t : List Nat) : splitOnNl t ≠ [] := by
  cases t with
  | nil => simp [splitOnNl]
  | cons b rest =>
    rw [splitOnNl]
    split
    · exact List.cons_ne_nil _ _
    · split <;> exact List.cons_ne_nil _ _

theorem splitOnNl_length (t : List Nat) : (splitOnNl t).length = 1 + t.count 10 := by
  induction t with
  | nil => simp [splitOnNl]
  | cons b rest ih =>
    rw [splitOnNl]
    by_cases hb : b = 10
    · simp [hb, List.count_cons, ih]
      omega
    · simp only [if_neg hb]
      cases hS : splitOnNl rest with
      | nil => exact absurd hS (splitOnNl_ne_nil rest)
      | cons l ls =>
        rw [hS] at ih
        simp [List.count_cons, hb, ← ih]

theorem unsplit_cons_cons (b : Nat) (l : List Nat) (ls : List (List Nat)) :
    unsplit ((b :: l) :: ls) = b :: unsplit (l :: ls) := by
  cases ls <;> rfl

theorem unsplit_splitOnNl (t : List Nat) : unsplit (splitOnNl t) = t := by
  induction t with
  | nil => rfl
  | cons b rest ih =>
    rw [splitOnNl]
    split
    · rename_i hb
      cases hS : splitOnNl rest with
      | nil => exact absurd hS (splitOnNl_ne_nil rest)
      | cons l ls =>
        rw [hS] at ih
        rw [unsplit, hb, ih]
        rfl
    · cases hS : splitOnNl rest with
      | nil => exact absurd hS (splitOnNl_ne_nil rest)
      | cons l ls =>
        rw [hS] at ih
        rw [unsplit_cons_cons, ih]

theorem lineOffsets_length (ps : List (List Nat)) (off : Nat) :
    (lineOffsets ps off).length = ps.length := by
  induction ps generalizing off with
  | nil => rfl
  | cons p ps ih => simp [lineOffsets, ih]

theorem lineOffsets_succ (ps : List (List Nat)) (off : Nat) (i : Nat)
    (h : i + 1 < ps.length) :
    (lineOffsets ps off).getD (i + 1) 0
      = (lineOffsets ps off).getD i 0 + (ps.getD i []).length + 1 := by
  induction ps generalizing off i with
  | nil => simp at h
  | cons p ps ih =>
    cases i with
    | zero =>
      cases ps with
      | nil => simp at h
      | cons q qs =>
        simp only [lineOffsets, List.getD_cons_succ, List.getD_cons_zero]
        omega
    | succ j =>
      simp only [lineOffsets, List.getD_cons_succ]
      exact ih _ j (by simpa using h)

theorem lineOffsets_last (ps : List (List Nat)) (off : Nat) (h : ps ≠ []) :
    (lineOffsets ps off).getD (ps.length - 1) 0 + (ps.getD (ps.length - 1) []).length
      = off + (unsplit ps).length := by
  induction ps generalizing off with
  | nil => exact absurd rfl h
  | cons p ps ih =>
    cases ps with
    | nil => simp [lineOffsets, unsplit]
    | cons q qs =>
      have hrec := ih (off + 1 + p.length) (List.cons_ne_nil _ _)
      have hlen : (p :: q :: qs).length - 1 = (q :: qs).length - 1 + 1 := by
        simp
      rw [hlen]
      have hcons : lineOffsets (p :: q :: qs) off
          = off :: lineOffsets (q :: qs) (off + 1 + p.length) := rfl
      rw [hcons]
      simp only [List.getD_cons_succ]
      rw [hrec, unsplit]
      simp
      omega

theorem linesOf_length (t : List Nat) : (linesOf t).length = (splitOnNl t).length :=
  lineOffsets_length _ _

theorem linesOf_ne_nil (t : List Nat) : linesOf t ≠ [] := by
  have h1 := linesOf_length t
  have h2 := splitOnNl_ne_nil t
  intro h
  rw [h] at h1
  exact h2 (List.eq_nil_of_length_eq_zero h1.symm)

theorem linesOf_getD_zero (t : List Nat) : (linesOf t).getD 0 0 = 0 := by
  unfold linesOf
  cases hS : splitOnNl t with
  | nil => exact absurd hS (splitOnNl_ne_nil t)
  | cons l ls => rfl

theorem linesOf_succ (t : List Nat) (i : Nat) (h : i + 1 < (linesOf t).length) :
    (linesOf t).getD (i + 1) 0
      = (linesOf t).getD i 0 + ((splitOnNl t).getD i []).length + 1 :=
  lineOffsets_succ _ _ _ (by rw [← linesOf_length]; exact h)

theorem linesOf_lt (t : List Nat) {i j : Nat} (hij : i < j)
    (hj : j < (linesOf t).length) :
    (linesOf t).getD i 0 < (linesOf t).getD j 0 := by
  have key : ∀ k, i + 1 + k < (linesOf t).length →
      (linesOf t).getD i 0 < (linesOf t).getD (i + 1 + k) 0 := by
    intro k
    induction k with
    | zero =>
      intro hk
      have h2 := linesOf_succ t i (by omega)
      simp only [Nat.add_zero]
      omega
    | succ m ih =>
      intro hk
      have h1 := ih (by omega)
      have h2 := linesOf_succ t (i + 1 + m) (by omega)
      have h3 : i + 1 + (m + 1) = i + 1 + m + 1 := by omega
      rw [h3]
      omega
  have := key (j - i - 1) (by omega)
  have hj' : i + 1 + (j - i - 1) = j := by omega
  rw [hj'] at this
  exact this

theorem linesOf_last (t : List Nat) :
    (linesOf t).getD ((linesOf t).length - 1) 0
      + ((splitOnNl t).getD ((splitOnNl t).length - 1) []).length = t.length := by
  have := lineOffsets_last (splitOnNl t) 0 (splitOnNl_ne_nil t)
  rw [unsplit_splitOnNl] at this
  rw [linesOf_length]
  simpa using this

theorem linesOf_le_length (t : List Nat) (l : Nat) (h : l < (linesOf t).length) :
    (linesOf t).getD l 0 ≤ t.length := by
  rcases Nat.lt_or_ge l ((linesOf t).length - 1) with hl | hl
  · have h1 := linesOf_lt t hl (by omega)
    have h2 := linesOf_last t
    omega
  · have : l = (linesOf t).length - 1 := by omega
    rw [this]
    have h2 := linesOf_last t
    omega

/-- The uniform line-bound formula: a line's start plus its byte length is its
upper bound (next start minus one, or total length for the last line). -/
theorem linesOf_max (t : List Nat) (l : Nat) (h : l < (linesOf t).length) :
    (linesOf t).getD l 0 + ((splitOnNl t).getD l []).length
      = if l + 1 < (linesOf t).length then (linesOf t).getD (l + 1) 0 - 1 else t.length := by
  split
  · rename_i h2
    rw [linesOf_succ t l h2]
    omega
  · rename_i h2
    have hl : l = (linesOf t).length - 1 := by omega
    have := linesOf_last t
    rw [← linesOf_length] at this
    rw [hl]
    exact this

/-! ### Decode-chain lemmas -/

theorem walkN_le (text : List Nat) {n : Nat} : ∀ {o b : Nat},
    walkN text o n = some b → o ≤ b := by
  induction n with
  | zero =>
    intro o b h
    simp [walkN] at h
    omega
  | succ m ih =>
    intro o b h
    rw [walkN] at h
    split at h
    · exact absurd h (by simp)
    · rename_i hd
      have h1 := ih h
      have h2 := decodeRune_size_pos _ hd
      omega

theorem walkN_lt (text : List Nat) {n o b : Nat}
    (h : walkN text o (n + 1) = some b) : o < b := by
  rw [walkN] at h
  split at h
  · exact absurd h (by simp)
  · rename_i hd
    have h1 := walkN_le text h
    have h2 := decodeRune_size_pos _ hd
    omega

theorem walkN_add (text : List Nat) (m n : Nat) : ∀ o,
    walkN text o (m + n) = (walkN text o m).bind (fun x => walkN text x n) := by
  induction m with
  | zero => intro o; simp [walkN]
  | succ k ih =>
    intro o
    have hs : k + 1 + n = (k + n) + 1 := by omega
    rw [hs, walkN, walkN]
    by_cases hd : (decodeRune (text.drop o)).1 = 0xFFFD
    · simp [hd]
    · simp only [if_neg hd]
      exact ih _

theorem walkN_mono (text : List Nat) {o i j x y : Nat}
    (hi : walkN text o i = some x) (hj : walkN text o j = some y) (hij : i ≤ j) :
    x ≤ y := by
  have hsplit : j = i + (j - i) := by omega
  rw [hsplit, walkN_add, hi] at hj
  simp at hj
  exact walkN_le text hj

theorem walkN_between (text : List Nat) {o i j x y : Nat}
    (hi : walkN text o i = some x) (hj : walkN text o j = some y) (hxy : x ≤ y) :
    i ≤ j ∧ walkN text x (j - i) = some y := by
  rcases le_or_lt i j with hij | hij
  · constructor
    · exact hij
    · have hsplit : j = i + (j - i) := by omega
      rw [hsplit, walkN_add, hi] at hj
      simpa using hj
  · exfalso
    have hsplit : i = j + (i - j) := by omega
    rw [hsplit, walkN_add, hj] at hi
    simp at hi
    have h1 : i - j = (i - j - 1) + 1 := by omega
    rw [h1] at hi
    have := walkN_lt text hi
    omega

/-! ### Walk-loop characterizations -/

theorem lbiWalk_resume (text : List Nat) (maxB target : Nat) : ∀ k o o₁ c,
    walkN text o k = some o₁ → o₁ ≤ target → o₁ ≤ maxB →
    lbiWalk text maxB target o c = lbiWalk text maxB target o₁ (c + k) := by
  intro k
  induction k with
  | zero =>
    intro o o₁ c h _ _
    simp [walkN] at h
    rw [h]
    rfl
  | succ m ih =>
    intro o o₁ c h h1 h2
    rw [walkN] at h
    split at h
    · exact absurd h (by simp)
    · rename_i hd
      have hsz := decodeRune_size_pos _ hd
      have hle := walkN_le text h
      have ho : ¬ o ≥ target := by omega
      rw [lbiWalk, dif_neg ho]
      simp only [dif_neg hd]
      rw [if_neg (by omega)]
      have := ih (o + (decodeRune (text.drop o)).2) o₁ (c + 1) h h1 h2
      rw [this]
      congr 1
      omega

theorem lbiWalk_exact (text : List Nat) (maxB : Nat) {k o tgt c : Nat}
    (h : walkN text o k = some tgt) (hm : tgt ≤ maxB) :
    lbiWalk text maxB tgt o c = .ok (tgt, c + k) := by
  rw [lbiWalk_resume text maxB tgt k o tgt c h le_rfl hm]
  rw [lbiWalk]
  simp

theorem lbiWalk_ok (text : List Nat) (maxB target : Nat) : ∀ o c o' c',
    lbiWalk text maxB target o c = .ok (o', c') →
    walkN text o (c' - c) = some o' ∧ c ≤ c' ∧ (o' ≤ maxB ∨ o' = o) := by
  suffices key : ∀ fuel o c o' c', target - o ≤ fuel →
      lbiWalk text maxB target o c = .ok (o', c') →
      walkN text o (c' - c) = some o' ∧ c ≤ c' ∧ (o' ≤ maxB ∨ o' = o) by
    intro o c o' c' h
    exact key (target - o) o c o' c' le_rfl h
  intro fuel
  induction fuel with
  | zero =>
    intro o c o' c' hf h
    rw [lbiWalk, dif_pos (by omega)] at h
    simp at h
    obtain ⟨h1, h2⟩ := h
    subst h1; subst h2
    exact ⟨by simp [walkN], le_rfl, Or.inr rfl⟩
  | succ f ih =>
    intro o c o' c' hf h
    by_cases ho : o ≥ target
    · rw [lbiWalk, dif_pos ho] at h
      simp at h
      obtain ⟨h1, h2⟩ := h
      subst h1; subst h2
      exact ⟨by simp [walkN], le_rfl, Or.inr rfl⟩
    · rw [lbiWalk, dif_neg ho] at h
      by_cases hd : (decodeRune (text.drop o)).1 = 0xFFFD
      · rw [dif_pos hd] at h
        exact absurd h (by simp)
      · rw [dif_neg hd] at h
        by_cases hmx : o + (decodeRune (text.drop o)).2 > maxB
        · rw [if_pos hmx] at h
          exact absurd h (by simp)
        · rw [if_neg hmx] at h
          have hsz := decodeRune_size_pos _ hd
          obtain ⟨w1, w2, w3⟩ := ih (o + (decodeRune (text.drop o)).2) (c + 1) o' c'
            (by omega) h
          refine ⟨?_, by omega, ?_⟩
          · have hc : c' - c = (c' - (c + 1)) + 1 := by omega
            rw [hc, walkN]
            simp only [if_neg hd]
            exact w1
          · rcases w3 with w3 | w3
            · exact Or.inl w3
            · exact Or.inl (by omega)

theorem ptbiWalk_ok (text : List Nat) (maxB : Nat) : ∀ n o b,
    ptbiWalk text maxB n o = .ok b →
    walkN text o n = some b ∧ (b ≤ maxB ∨ b = o) := by
  intro n
  induction n with
  | zero =>
    intro o b h
    simp [ptbiWalk] at h
    subst h
    exact ⟨by simp [walkN], Or.inr rfl⟩
  | succ m ih =>
    intro o b h
    rw [ptbiWalk] at h
    by_cases hd : (decodeRune (text.drop o)).1 = 0xFFFD
    · rw [if_pos hd] at h
      exact absurd h (by simp)
    · rw [if_neg hd] at h
      by_cases hchk : o + (decodeRune (text.drop o)).2 > maxB ∨
          (o + (decodeRune (text.drop o)).2 = maxB ∧ 0 < m)
      · rw [if_pos hchk] at h
        exact absurd h (by simp)
      · rw [if_neg hchk] at h
        obtain ⟨w1, w2⟩ := ih _ _ h
        refine ⟨?_, ?_⟩
        · rw [walkN]
          simp only [if_neg hd]
          exact w1
        · push_neg at hchk
          rcases w2 with w2 | w2
          · exact Or.inl w2
          · exact Or.inl (by omega)

theorem ptbiWalk_of_walkN (text : List Nat) (maxB : Nat) : ∀ n o b,
    walkN text o n = some b → b ≤ maxB → ptbiWalk text maxB n o = .ok b := by
  intro n
  induction n with
  | zero =>
    intro o b h _
    simp [walkN] at h
    subst h
    rfl
  | succ m ih =>
    intro o b h hb
    rw [walkN] at h
    split at h
    · exact absurd h (by simp)
    · rename_i hd
      have hle := walkN_le text h
      rw [ptbiWalk]
      simp only [if_neg hd]
      rw [if_neg ?_]
      · exact ih _ _ h hb
      · push_neg
        constructor
        · omega
        · intro hm
          by_cases hm0 : m = 0
          · omega
          · have hml : m - 1 + 1 = m := by omega
            have := walkN_lt text (n := m - 1) (by rw [hml]; exact h)
            omega

/-! ### Conversion lemmas -/

theorem lineStart_le_lineMaxD (doc : TextDocument τ) (hL : doc.Lines = linesOf doc.Text)
    (hT : doc.TextLength = doc.Text.length) (l : Nat) (hl : l < doc.Lines.length) :
    doc.Lines.getD l 0 ≤ lineMaxD doc l := by
  have hmax := linesOf_max doc.Text l (by rw [← hL]; exact hl)
  unfold lineMaxD
  rw [hL, hT] at *
  split
  · rename_i h2
    rw [if_pos h2] at hmax
    omega
  · rename_i h2
    rw [if_neg h2] at hmax
    omega

theorem lineMaxD_le (doc : TextDocument τ) (hL : doc.Lines = linesOf doc.Text)
    (hT : doc.TextLength = doc.Text.length) (l : Nat) :
    lineMaxD doc l ≤ doc.Text.length := by
  unfold lineMaxD
  split
  · rename_i h2
    have := linesOf_le_length doc.Text (l + 1) (by rw [← hL]; exact h2)
    rw [hL]
    omega
  · omega

/-- Success of `PositionToByteIndex` in terms of the decode chain. -/
theorem PositionToByteIndex_ok {doc : TextDocument τ} {p : Position} {b : Nat}
    (hL : doc.Lines = linesOf doc.Text) (hT : doc.TextLength = doc.Text.length)
    (h : PositionToByteIndex doc p = .ok b) :
    p.line < doc.Lines.length ∧
    walkN doc.Text (doc.Lines.getD p.line 0) p.character = some b ∧
    b ≤ lineMaxD doc p.line := by
  unfold PositionToByteIndex at h
  dsimp only at h
  split at h
  · exact absurd h (by simp)
  · rename_i hl
    push_neg at hl
    have hfold : (if p.line + 1 < doc.Lines.length then doc.Lines.getD (p.line + 1) 0 - 1
        else doc.TextLength) = lineMaxD doc p.line := rfl
    rw [hfold] at h
    obtain ⟨w1, w2⟩ := ptbiWalk_ok doc.Text _ p.character _ b h
    refine ⟨hl, w1, ?_⟩
    rcases w2 with w2 | w2
    · exact w2
    · rw [w2]
      exact lineStart_le_lineMaxD doc hL hT p.line hl

/-- Success of `PositionToByteIndex` given a decode chain to a byte within the
line's bound. -/
theorem PositionToByteIndex_of_walkN {doc : TextDocument τ} {l k b : Nat}
    (hl : l < doc.Lines.length)
    (hchain : walkN doc.Text (doc.Lines.getD l 0) k = some b)
    (hmax : b ≤ lineMaxD doc l) :
    PositionToByteIndex doc ⟨l, k⟩ = .ok b := by
  unfold PositionToByteIndex
  rw [if_neg (by simp; exact hl)]
  exact ptbiWalk_of_walkN doc.Text _ k _ b hchain hmax

theorem bilWalk_eq (t : List Nat) (index l : Nat) (hl : l < (linesOf t).length)
    (hge : (linesOf t).getD l 0 ≤ index)
    (hlt : l + 1 < (linesOf t).length → index < (linesOf t).getD (l + 1) 0) :
    ∀ j, l ≤ j → j < (linesOf t).length → bilWalk (linesOf t) index j = l := by
  intro j
  induction j with
  | zero =>
    intro hlj _
    have : l = 0 := by omega
    rw [this, bilWalk]
  | succ m ih =>
    intro hlj hjlen
    rw [bilWalk]
    by_cases hj : l = m + 1
    · rw [if_pos (by rw [← hj]; exact hge), hj]
    · have hlm : l ≤ m := by omega
      have hidx : index < (linesOf t).getD (m + 1) 0 := by
        have h1 := hlt (by omega)
        rcases Nat.lt_or_ge (l + 1) (m + 1) with hc | hc
        · have := linesOf_lt t hc hjlen
          omega
        · have : l + 1 = m + 1 := by omega
          rw [← this]
          exact h1
      rw [if_neg (by omega)]
      exact ih hlm (by omega)

/-- `ByteIndexLine` finds the unique line containing a byte offset. -/
theorem ByteIndexLine_eq {doc : TextDocument τ} {b l : Nat}
    (hL : doc.Lines = linesOf doc.Text) (hT : doc.TextLength = doc.Text.length)
    (hl : l < doc.Lines.length)
    (hge : doc.Lines.getD l 0 ≤ b) (hmax : b ≤ lineMaxD doc l) :
    ByteIndexLine doc b = .ok l := by
  unfold ByteIndexLine
  rw [if_neg ?side]
  case side =>
    push_neg
    calc b ≤ lineMaxD doc l := hmax
    _ ≤ doc.Text.length := lineMaxD_le doc hL hT l
    _ = doc.TextLength := hT.symm
  congr 1
  rw [hL] at hl hge ⊢
  refine bilWalk_eq doc.Text b l hl hge ?_ ((linesOf doc.Text).length - 1)
    (by omega) (by omega)
  intro h2
  unfold lineMaxD at hmax
  rw [hL] at hmax
  rw [if_pos h2] at hmax
  have hpos : 0 < (linesOf doc.Text).getD (l + 1) 0 := by
    have := linesOf_lt doc.Text (show 0 < l + 1 by omega) h2
    have hz := linesOf_getD_zero doc.Text
    omega
  omega

/-- The central computation: when `tgt` lies on line `l`'s decode chain within
its bound, `LineByteIndexToPosition` stops exactly there, returns the chain's
column, and caches the endpoint — for any valid cache state. -/
theorem LineByteIndexToPosition_of_chain {doc : TextDocument τ} (hWf : Wf doc)
    {l tgt k : Nat} (hl : l < doc.Lines.length)
    (hchain : walkN doc.Text (doc.Lines.getD l 0) k = some tgt)
    (hmax : tgt ≤ lineMaxD doc l) :
    LineByteIndexToPosition doc l (tgt - doc.Lines.getD l 0)
      = .ok (⟨l, k⟩, { doc with lastLineOffset := ⟨l, tgt, k⟩ }) := by
  obtain ⟨hL, hT, hcl, hcw, hcm⟩ := hWf
  have hstart := walkN_le doc.Text hchain
  have htgt : tgt - doc.Lines.getD l 0 + doc.Lines.getD l 0 = tgt := by omega
  unfold LineByteIndexToPosition LineMinMaxByteIndex
  rw [if_neg (by push_neg; exact hl)]
  dsimp only
  rw [htgt]
  have hfold : (if l + 1 < doc.Lines.length then doc.Lines.getD (l + 1) 0 - 1
      else doc.TextLength) = lineMaxD doc l := rfl
  rw [hfold]
  by_cases hhit : doc.lastLineOffset.line = l ∧ doc.lastLineOffset.offset ≤ tgt
  · rw [if_pos hhit]
    obtain ⟨hline, hoff⟩ := hhit
    rw [hline] at hcw hcm
    obtain ⟨hsteps, hrest⟩ := walkN_between doc.Text hcw hchain hoff
    have hx := lbiWalk_exact doc.Text (lineMaxD doc l) hrest hmax
      (c := doc.lastLineOffset.column)
    have hcol : doc.lastLineOffset.column + (k - doc.lastLineOffset.column) = k := by
      omega
    rw [hcol] at hx
    rw [hx]
  · rw [if_neg hhit]
    have hx := lbiWalk_exact doc.Text (lineMaxD doc l) hchain hmax (c := 0)
    rw [hx]
    simp

theorem CacheOk_reset (doc : TextDocument τ) (hL : doc.Lines = linesOf doc.Text) :
    CacheOk (resetCache doc) := by
  refine ⟨?_, ?_, ?_⟩
  · show 0 < doc.Lines.length
    rw [hL]
    exact List.length_pos.mpr (linesOf_ne_nil doc.Text)
  · show walkN doc.Text (doc.Lines.getD 0 0) 0 = some 0
    rw [walkN, hL, linesOf_getD_zero]
  · exact Nat.zero_le _

theorem Wf_resetCache (doc : TextDocument τ) (hWf : Wf doc) : Wf (resetCache doc) :=
  ⟨hWf.1, hWf.2.1, CacheOk_reset doc hWf.1⟩

/-- `LineByteIndexToPosition` on a well-formed document computes the same
value as the cache-free walk from the line's start. -/
theorem LineByteIndexToPosition_result (doc : TextDocument τ) (hWf : Wf doc)
    (l i : Nat) (hl : l < doc.Lines.length) :
    LineByteIndexToPosition doc l i
      = match lbiWalk doc.Text (lineMaxD doc l) (i + doc.Lines.getD l 0)
          (doc.Lines.getD l 0) 0 with
        | .error e => .error e
        | .ok (offset, column) =>
          .ok (⟨l, column⟩, { doc with lastLineOffset := ⟨l, offset, column⟩ }) := by
  obtain ⟨hL, hT, hcl, hcw, hcm⟩ := hWf
  unfold LineByteIndexToPosition LineMinMaxByteIndex
  rw [if_neg (by push_neg; exact hl)]
  dsimp only
  have hfold : (if l + 1 < doc.Lines.length then doc.Lines.getD (l + 1) 0 - 1
      else doc.TextLength) = lineMaxD doc l := rfl
  rw [hfold]
  by_cases hhit : doc.lastLineOffset.line = l ∧
      doc.lastLineOffset.offset ≤ i + doc.Lines.getD l 0
  · rw [if_pos hhit]
    obtain ⟨hline, hoff⟩ := hhit
    rw [hline] at hcw hcm
    have hres := lbiWalk_resume doc.Text (lineMaxD doc l) (i + doc.Lines.getD l 0)
      doc.lastLineOffset.column (doc.Lines.getD l 0) doc.lastLineOffset.offset 0
      hcw hoff hcm
    rw [Nat.zero_add] at hres
    rw [← hres]
  · rw [if_neg hhit]

/-- C9: the position cache affects only speed, never results.
`LineByteIndexToPosition` returns the same value on a well-formed document as
on the same document with the cache reset (positions and error outcomes
alike); any successful walk leaves the document well-formed again (the new
cache entry is the walk's endpoint); and `UpdateLines` always resets the
cache to the empty entry. -/
theorem position_cache_transparent (doc : TextDocument τ) (l i : Nat) (hWf : Wf doc) :
    LineByteIndexToPosition doc l i = LineByteIndexToPosition (resetCache doc) l i
    ∧ (∀ p doc', LineByteIndexToPosition doc l i = .ok (p, doc') → Wf doc')
    ∧ (∀ d : TextDocument τ, (UpdateLines d).lastLineOffset = ⟨0, 0, 0⟩) := by
  have hWfR := Wf_resetCache doc hWf
  obtain ⟨hL, hT, hcl, hcw, hcm⟩ := hWf
  refine ⟨?_, ?_, fun d => rfl⟩
  · by_cases hlen : l < doc.Lines.length
    · rw [LineByteIndexToPosition_result doc ⟨hL, hT, hcl, hcw, hcm⟩ l i hlen,
        LineByteIndexToPosition_result (resetCache doc) hWfR l i hlen]
      rfl
    · unfold LineByteIndexToPosition LineMinMaxByteIndex
      have hR : (resetCache doc).Lines.length = doc.Lines.length := rfl
      rw [if_pos (by omega), if_pos (show l ≥ (resetCache doc).Lines.length by rw [hR]; omega)]
  · intro p doc' h
    by_cases hlen : l < doc.Lines.length
    · rw [LineByteIndexToPosition_result doc ⟨hL, hT, hcl, hcw, hcm⟩ l i hlen] at h
      cases hw : lbiWalk doc.Text (lineMaxD doc l) (i + doc.Lines.getD l 0)
          (doc.Lines.getD l 0) 0 with
      | error e => rw [hw] at h; exact absurd h (by simp)
      | ok oc =>
        obtain ⟨o, c⟩ := oc
        rw [hw] at h
        simp only [Except.ok.injEq, Prod.mk.injEq] at h
        obtain ⟨hp, hdoc⟩ := h
        obtain ⟨w1, w2, w3⟩ := lbiWalk_ok doc.Text _ _ _ _ _ _ hw
        rw [Nat.sub_zero] at w1
        subst hdoc
        refine ⟨hL, hT, hlen, w1, ?_⟩
        rcases w3 with w3 | w3
        · exact w3
        · rw [w3]
          exact lineStart_le_lineMaxD doc hL hT l hlen
    · unfold LineByteIndexToPosition LineMinMaxByteIndex at h
      rw [if_pos (by omega)] at h
      exact absurd h (by simp)

/-- C1: for every valid position `p` of a well-formed document (one whose
conversion to a byte offset succeeds), converting the offset back with
`ByteIndexToPosition` yields `p` again. -/
theorem position_to_byte_round_trip (doc : TextDocument τ) (p : Position) (b : Nat)
    (hWf : Wf doc) (h : PositionToByteIndex doc p = .ok b) :
    (ByteIndexToPosition doc b).map Prod.fst = .ok p := by
  obtain ⟨pl, pc⟩ := p
  obtain ⟨hL, hT, hC⟩ := hWf
  obtain ⟨hl, hchain, hmax⟩ := PositionToByteIndex_ok hL hT h
  have hge := walkN_le doc.Text hchain
  unfold ByteIndexToPosition
  rw [ByteIndexLine_eq hL hT hl hge hmax]
  dsimp only
  rw [LineByteIndexToPosition_of_chain ⟨hL, hT, hC⟩ hl hchain hmax]
  rfl

/-- C1 witness: position (0,2) of `"⌘sd\nqwer\n⌘xc"` converts to byte 4 and
back to (0,2). -/
theorem position_to_byte_round_trip_witness :
    PositionToByteIndex sampleDoc ⟨0, 2⟩ = .ok 4 ∧
    (ByteIndexToPosition sampleDoc 4).map Prod.fst = .ok ⟨0, 2⟩ :=
  ⟨rfl, position_to_byte_round_trip sampleDoc ⟨0, 2⟩ 4
    ⟨rfl, rfl, by decide, by decide, by decide⟩ rfl⟩

/-- C2 counterexample: byte offset 1 of `"⌘sd\nqwer\n⌘xc"` is within range
(0 ≤ 1 ≤ 16) but in the middle of the three-byte rune `⌘`; the round trip
byte → position → byte returns 3, not 1. -/
theorem byte_round_trip_fails_mid_rune :
    1 ≤ sampleDoc.TextLength ∧
    (ByteIndexToPosition sampleDoc 1).bind (fun pd => PositionToByteIndex pd.2 pd.1)
      = .ok 3 ∧ (3 : Nat) ≠ 1 := by
  refine ⟨by decide, ?_, by decide⟩
  simp [ByteIndexToPosition, ByteIndexLine, sampleDoc, sampleText, NewTextDocument,
    UpdateLines, linesOf, splitOnNl, lineOffsets, bilWalk, LineByteIndexToPosition,
    LineMinMaxByteIndex, lbiWalk, decodeRune, PositionToByteIndex, ptbiWalk,
    Except.bind]

/-- C2 as amended: for every byte offset `b` within range that lies on a
UTF-8 character boundary of its line (reachable from the line's start by
decoding whole runes, within the line's bound), converting `b` to a position
and back yields `b` again. -/
theorem byte_to_position_round_trip_boundary (doc : TextDocument τ) (b l k : Nat)
    (hWf : Wf doc) (hl : l < doc.Lines.length)
    (hchain : walkN doc.Text (doc.Lines.getD l 0) k = some b)
    (hmax : b ≤ lineMaxD doc l) :
    (ByteIndexToPosition doc b).bind (fun pd => PositionToByteIndex pd.2 pd.1)
      = .ok b := by
  obtain ⟨hL, hT, hC⟩ := hWf
  have hge := walkN_le doc.Text hchain
  unfold ByteIndexToPosition
  rw [ByteIndexLine_eq hL hT hl hge hmax]
  dsimp only
  rw [LineByteIndexToPosition_of_chain ⟨hL, hT, hC⟩ hl hchain hmax]
  show PositionToByteIndex _ (⟨l, k⟩ : Position) = .ok b
  exact PositionToByteIndex_of_walkN hl hchain hmax

/-- C2 amended witness: byte 16 of `"⌘sd\nqwer\n⌘xc"` (one past the last
character, the spec's own example) round-trips through position (2,3). -/
theorem byte_to_position_round_trip_boundary_witness :
    (ByteIndexToPosition sampleDoc 16).bind (fun pd => PositionToByteIndex pd.2 pd.1)
      = .ok 16 :=
  byte_to_position_round_trip_boundary sampleDoc 16 2 3
    ⟨rfl, rfl, by decide, by decide, by decide⟩ (by decide) (by decide) (by decide)

/-- C9 witness: the cached and cache-free walks agree on line 2, byte 4 of
the sample document. -/
theorem position_cache_transparent_witness :
    LineByteIndexToPosition sampleDoc 2 4
      = LineByteIndexToPosition (resetCache sampleDoc) 2 4 :=
  (position_cache_transparent sampleDoc 2 4
    ⟨rfl, rfl, by decide, by decide, by decide⟩).1

/-- C3: `CompareNodeWithRange` always yields exactly one of the four outcomes
(-1 Before, 0 Inside, 1 Overlapping, 2 After), and a zero-width range whose
point equals the node's start point or end point yields Overlapping (1),
never Inside (0). -/
theorem compare_node_with_range_total_boundary (start stop rs re : Point) :
    (CompareNodeWithRange start stop rs re = -1 ∨
     CompareNodeWithRange start stop rs re = 0 ∨
     CompareNodeWithRange start stop rs re = 1 ∨
     CompareNodeWithRange start stop rs re = 2) ∧
    (rs = re → (start = rs ∨ stop = re) →
      CompareNodeWithRange start stop rs re = 1) := by
  constructor
  · unfold CompareNodeWithRange
    repeat' split
    all_goals decide
  · intro h1 h2
    subst h1
    rcases h2 with h2 | h2 <;> subst h2
    · unfold CompareNodeWithRange
      rw [if_pos ⟨⟨rfl, rfl⟩, Or.inl ⟨rfl, rfl⟩⟩]
    · unfold CompareNodeWithRange
      rw [if_pos ⟨⟨rfl, rfl⟩, Or.inr ⟨rfl, rfl⟩⟩]

/-- C3 witness: a zero-width range at the start point of a node spanning
(0,0)-(0,5) is classified Overlapping (1). -/
theorem compare_node_with_range_total_boundary_witness :
    CompareNodeWithRange ⟨0, 0⟩ ⟨0, 5⟩ ⟨0, 0⟩ ⟨0, 0⟩ = 1 :=
  (compare_node_with_range_total_boundary ⟨0, 0⟩ ⟨0, 5⟩ ⟨0, 0⟩ ⟨0, 0⟩).2
    rfl (Or.inl rfl)

/-- `UpdateTree` never touches the text, line index or cache. -/
theorem UpdateTree_fields (sit : Sitter τ) (d : TextDocument τ) :
    (UpdateTree sit d).1.Text = d.Text ∧ (UpdateTree sit d).1.TextLength = d.TextLength ∧
    (UpdateTree sit d).1.Lines = d.Lines ∧
    (UpdateTree sit d).1.lastLineOffset = d.lastLineOffset := by
  unfold UpdateTree
  split
  · exact ⟨rfl, rfl, rfl, rfl⟩
  · split <;> exact ⟨rfl, rfl, rfl, rfl⟩

/-- `UpdateHighlightCaptures` never touches the text, line index or cache. -/
theorem UpdateHighlightCaptures_fields (sit : Sitter τ) (d : TextDocument τ) :
    (UpdateHighlightCaptures sit d).Text = d.Text ∧
    (UpdateHighlightCaptures sit d).TextLength = d.TextLength ∧
    (UpdateHighlightCaptures sit d).Lines = d.Lines ∧
    (UpdateHighlightCaptures sit d).lastLineOffset = d.lastLineOffset := by
  unfold UpdateHighlightCaptures
  split
  · exact ⟨rfl, rfl, rfl, rfl⟩
  · split <;> exact ⟨rfl, rfl, rfl, rfl⟩

/-- The shape of a `ChangeCtx` result: either a conversion failed and the
document is returned untouched, or the range converted to byte offsets
`s`, `t` and the final document carries the spliced text with a freshly
rebuilt line index and reset cache (whatever the tree/parse outcome). -/
theorem ChangeCtx_shape (sit : Sitter τ) (doc : TextDocument τ) (e : ChangeEvent) :
    ((∃ er, PositionToByteIndex doc e.range.start = .error er ∨
        PositionToByteIndex doc e.range.stop = .error er) ∧
      (ChangeCtx sit doc e).1 = doc) ∨
    ∃ s t, PositionToByteIndex doc e.range.start = .ok s ∧
      PositionToByteIndex doc e.range.stop = .ok t ∧
      (ChangeCtx sit doc e).1.Text = doc.Text.take s ++ e.text ++ doc.Text.drop t ∧
      (ChangeCtx sit doc e).1.Lines
        = linesOf (doc.Text.take s ++ e.text ++ doc.Text.drop t) ∧
      (ChangeCtx sit doc e).1.TextLength
        = (doc.Text.take s ++ e.text ++ doc.Text.drop t).length ∧
      (ChangeCtx sit doc e).1.lastLineOffset = ⟨0, 0, 0⟩ := by
  unfold ChangeCtx
  cases hA : PositionToByteIndex doc e.range.start with
  | error err => exact Or.inl ⟨⟨err, Or.inl rfl⟩, rfl⟩
  | ok s =>
  cases hB : PositionToByteIndex doc e.range.stop with
  | error err => exact Or.inl ⟨⟨err, Or.inr rfl⟩, rfl⟩
  | ok t =>
  have hPA : PositionToPoint doc e.range.start
      = .ok ⟨e.range.start.line, s - doc.Lines.getD e.range.start.line 0⟩ := by
    unfold PositionToPoint
    rw [hA]
  have hPB : PositionToPoint doc e.range.stop
      = .ok ⟨e.range.stop.line, t - doc.Lines.getD e.range.stop.line 0⟩ := by
    unfold PositionToPoint
    rw [hB]
  rw [hPA, hPB]
  dsimp only
  refine Or.inr ⟨s, t, rfl, rfl, ?_⟩
  set d1 := UpdateLines { doc with Text := doc.Text.take s ++ e.text ++ doc.Text.drop t }
    with hd1
  have f1 : d1.Text = doc.Text.take s ++ e.text ++ doc.Text.drop t := rfl
  have f2 : d1.Lines = linesOf (doc.Text.take s ++ e.text ++ doc.Text.drop t) := rfl
  have f3 : d1.TextLength = (doc.Text.take s ++ e.text ++ doc.Text.drop t).length := rfl
  have f4 : d1.lastLineOffset = ⟨0, 0, 0⟩ := rfl
  cases hTr : d1.Tree with
  | none =>
    dsimp only
    obtain ⟨u1, u2, u3, u4⟩ := UpdateTree_fields sit d1
    exact ⟨by rw [u1, f1], by rw [u3, f2], by rw [u2, f3], by rw [u4, f4]⟩
  | some tr =>
    dsimp only
    cases hBP : ByteIndexToPoint d1 (s + e.text.length) with
    | error err =>
      dsimp only
      exact ⟨f1, f2, f3, f4⟩
    | ok np =>
      dsimp only
      set d2 := { d1 with Tree := some (sit.edit tr ⟨s, t, s + e.text.length,
        ⟨e.range.start.line, s - doc.Lines.getD e.range.start.line 0⟩,
        ⟨e.range.stop.line, t - doc.Lines.getD e.range.stop.line 0⟩, np⟩) } with hd2
      have g1 : d2.Text = d1.Text := rfl
      have g2 : d2.Lines = d1.Lines := rfl
      have g3 : d2.TextLength = d1.TextLength := rfl
      have g4 : d2.lastLineOffset = d1.lastLineOffset := rfl
      obtain ⟨u1, u2, u3, u4⟩ := UpdateTree_fields sit d2
      cases hU : UpdateTree sit d2 with
      | mk d3 oe =>
        rw [hU] at u1 u2 u3 u4
        dsimp only at u1 u2 u3 u4
        cases oe with
        | some err =>
          dsimp only
          exact ⟨by rw [u1, g1, f1], by rw [u3, g2, f2], by rw [u2, g3, f3],
            by rw [u4, g4, f4]⟩
        | none =>
          dsimp only
          obtain ⟨v1, v2, v3, v4⟩ := UpdateHighlightCaptures_fields sit d3
          exact ⟨by rw [v1, u1, g1, f1], by rw [v3, u3, g2, f2],
            by rw [v2, u2, g3, f3], by rw [v4, u4, g4, f4]⟩

/-- C4: after any mutation (`NewTextDocument`, `SetTextCtx`, `ChangeCtx`) the
line index satisfies: its length is 1 plus the number of newline bytes, it
starts at 0, it is strictly increasing, and consecutive entries differ by the
byte length of the line in between plus one. -/
theorem lines_index_invariants (text : List Nat) :
    ((linesOf text).length = 1 + text.count 10 ∧
     (linesOf text).getD 0 0 = 0 ∧
     (∀ i j, i < j → j < (linesOf text).length →
        (linesOf text).getD i 0 < (linesOf text).getD j 0) ∧
     (∀ i, i + 1 < (linesOf text).length →
        (linesOf text).getD (i + 1) 0 - (linesOf text).getD i 0 - 1
          = ((splitOnNl text).getD i []).length)) ∧
    (∀ t2 : List Nat, (NewTextDocument t2 : TextDocument τ).Lines = linesOf t2) ∧
    (∀ (sit : Sitter τ) (doc : TextDocument τ) t2,
      (SetTextCtx sit doc t2).1.Lines = linesOf (SetTextCtx sit doc t2).1.Text) ∧
    (∀ (sit : Sitter τ) (doc : TextDocument τ) e, doc.Lines = linesOf doc.Text →
      (ChangeCtx sit doc e).1.Lines = linesOf (ChangeCtx sit doc e).1.Text) := by
  refine ⟨⟨?_, linesOf_getD_zero text, fun i j hij hj => linesOf_lt text hij hj, ?_⟩,
    fun t2 => rfl, ?_, ?_⟩
  · rw [linesOf_length, splitOnNl_length]
  · intro i h
    have h1 := linesOf_succ text i h
    omega
  · intro sit doc t2
    obtain ⟨u1, _, u3, _⟩ := UpdateTree_fields sit (UpdateLines { doc with Text := t2 })
    show (UpdateTree sit (UpdateLines { doc with Text := t2 })).1.Lines
      = linesOf (UpdateTree sit (UpdateLines { doc with Text := t2 })).1.Text
    rw [u1, u3]
    rfl
  · intro sit doc e hL
    rcases ChangeCtx_shape sit doc e with ⟨_, h⟩ | ⟨s, t, _, _, h1, h2, _, _⟩
    · rw [h]
      exact hL
    · rw [h1, h2]

/-- C4 witness: concrete instances of the invariants on the sample text. -/
theorem lines_index_invariants_witness :
    (linesOf sampleText).getD 1 0 < (linesOf sampleText).getD 2 0 ∧
    (linesOf sampleText).getD 1 0 - (linesOf sampleText).getD 0 0 - 1
      = ((splitOnNl sampleText).getD 0 []).length :=
  ⟨(lines_index_invariants (τ := Unit) sampleText).1.2.2.1 1 2 (by decide) (by decide),
   (lines_index_invariants (τ := Unit) sampleText).1.2.2.2 0 (by decide)⟩

/-- C5: when both range ends convert to byte offsets, `ChangeCtx` replaces
the byte span `[s, t)` with the event's text and rebuilds the line index;
in particular replacing (0,0)-(2,1) of `"⌘sd\nqwer\n⌘xc"` with `"TEST"`
yields `"TESTxc"`.  A zero-width range (`s = t`) inserts without deleting,
as an instance of the same formula. -/
theorem change_splices_text (sit : Sitter τ) (doc : TextDocument τ) (e : ChangeEvent)
    (s t : Nat)
    (h1 : PositionToByteIndex doc e.range.start = .ok s)
    (h2 : PositionToByteIndex doc e.range.stop = .ok t) :
    ((ChangeCtx sit doc e).1.Text = doc.Text.take s ++ e.text ++ doc.Text.drop t ∧
     (ChangeCtx sit doc e).1.Lines = linesOf ((ChangeCtx sit doc e).1.Text) ∧
     (ChangeCtx sit doc e).1.TextLength = (ChangeCtx sit doc e).1.Text.length) ∧
    (ChangeCtx sitFail sampleDoc ⟨⟨⟨0, 0⟩, ⟨2, 1⟩⟩, [84, 69, 83, 84]⟩).1.Text
      = [84, 69, 83, 84, 120, 99] := by
  refine ⟨?_, rfl⟩
  rcases ChangeCtx_shape sit doc e with ⟨⟨er, her⟩, _⟩ | ⟨s', t', hs, ht, w1, w2, w3, _⟩
  · rcases her with her | her
    · rw [h1] at her
      exact absurd her (by simp)
    · rw [h2] at her
      exact absurd her (by simp)
  · rw [h1] at hs
    rw [h2] at ht
    simp only [Except.ok.injEq] at hs ht
    subst hs; subst ht
    exact ⟨w1, by rw [w2, w1], by rw [w3, w1]⟩

/-- C5 witness: inserting at the zero-width range (1,1)-(1,1) of the sample
document splices at byte 7 without deleting. -/
theorem change_splices_text_witness :
    (ChangeCtx sitFail sampleDoc ⟨⟨⟨1, 1⟩, ⟨1, 1⟩⟩, [84, 69, 83, 84]⟩).1.Text
      = sampleText.take 7 ++ [84, 69, 83, 84] ++ sampleText.drop 7 :=
  (change_splices_text sitFail sampleDoc ⟨⟨⟨1, 1⟩, ⟨1, 1⟩⟩, [84, 69, 83, 84]⟩
    7 7 rfl rfl).1.1

theorem getLast?_mem (l : List Nat) (a : Nat) (h : l.getLast? = some a) : a ∈ l := by
  induction l with
  | nil => simp at h
  | cons b rest ih =>
    cases rest with
    | nil =>
      simp at h
      simp [h]
    | cons c rest2 =>
      rw [List.getLast?_cons_cons] at h
      exact List.mem_cons_of_mem b (ih h)

theorem splitOnNl_last_nil (t : List Nat)
    (h : t = [] ∨ t.getLast? = some 10) :
    (splitOnNl t).getD ((splitOnNl t).length - 1) [] = [] := by
  induction t with
  | nil => rfl
  | cons b rest ih =>
    rcases h with h | h
    · exact absurd h (by simp)
    cases rest with
    | nil =>
      simp at h
      subst h
      rfl
    | cons c rest2 =>
      rw [List.getLast?_cons_cons] at h
      have hmem : (10 : Nat) ∈ c :: rest2 := getLast?_mem _ _ h
      have hcnt : 0 < (c :: rest2).count 10 := List.count_pos_iff.mpr hmem
      have hlen2 : 2 ≤ (splitOnNl (c :: rest2)).length := by
        rw [splitOnNl_length]
        omega
      have ihr := ih (Or.inr h)
      rw [splitOnNl]
      by_cases hb : b = 10
      · rw [if_pos hb]
        have hlen3 : ([] :: splitOnNl (c :: rest2)).length - 1
            = ((splitOnNl (c :: rest2)).length - 1) + 1 := by
          simp
          omega
        rw [hlen3, List.getD_cons_succ]
        exact ihr
      · rw [if_neg hb]
        cases hS : splitOnNl (c :: rest2) with
        | nil => exact absurd hS (splitOnNl_ne_nil _)
        | cons l ls =>
          rw [hS] at ihr hlen2
          cases ls with
          | nil => simp at hlen2
          | cons l2 ls2 =>
            have hlen4 : ((b :: l) :: l2 :: ls2).length - 1
                = ((l2 :: ls2).length - 1) + 1 := by
              simp
            have hlen5 : (l :: l2 :: ls2).length - 1
                = ((l2 :: ls2).length - 1) + 1 := by
              simp
            rw [hlen4, List.getD_cons_succ]
            rw [hlen5, List.getD_cons_succ] at ihr
            exact ihr

/-- For a text that is empty or ends in a newline, the last line is empty and
starts at the total byte length. -/
theorem linesOf_last_start (t : List Nat) (h : t = [] ∨ t.getLast? = some 10) :
    (linesOf t).getD ((linesOf t).length - 1) 0 = t.length := by
  have h1 := linesOf_last t
  rw [splitOnNl_last_nil t h] at h1
  simpa using h1

/-- C6 counterexample: position (lines_count, 0) is rejected by
`PositionToByteIndex` (line index out of range) on the sample document —
lines are 0-indexed, so `lines_count` is not a valid line index. -/
theorem one_past_last_line_errors :
    PositionToByteIndex sampleDoc ⟨sampleDoc.Lines.length, 0⟩
      = .error .lineOutOfRange := rfl

/-- C6 as amended: for a document whose text is empty or ends in a line
terminator, column 0 of the final (empty) line — position
(lines_count - 1, 0), one past the last content line — is a valid address:
`PositionToByteIndex` returns the total text length, and a zero-width change
range there is accepted and appends the replacement text. -/
theorem end_of_text_position (doc : TextDocument τ) (sit : Sitter τ) (ins : List Nat)
    (hWf : Wf doc) (hNl : doc.Text = [] ∨ doc.Text.getLast? = some 10) :
    PositionToByteIndex doc ⟨doc.Lines.length - 1, 0⟩ = .ok doc.TextLength ∧
    (ChangeCtx sit doc ⟨⟨⟨doc.Lines.length - 1, 0⟩, ⟨doc.Lines.length - 1, 0⟩⟩,
      ins⟩).1.Text = doc.Text ++ ins := by
  obtain ⟨hL, hT, hC⟩ := hWf
  have hlen : 0 < doc.Lines.length := by
    rw [hL]
    exact List.length_pos.mpr (linesOf_ne_nil doc.Text)
  have hstart : doc.Lines.getD (doc.Lines.length - 1) 0 = doc.Text.length := by
    rw [hL]
    exact linesOf_last_start doc.Text hNl
  have hPT : PositionToByteIndex doc ⟨doc.Lines.length - 1, 0⟩
      = .ok doc.Text.length := by
    refine PositionToByteIndex_of_walkN (by omega) ?_ ?_
    · rw [walkN, hstart]
    · unfold lineMaxD
      rw [if_neg (by omega), hT]
  constructor
  · rw [hPT, hT]
  · rcases ChangeCtx_shape sit doc
        ⟨⟨⟨doc.Lines.length - 1, 0⟩, ⟨doc.Lines.length - 1, 0⟩⟩, ins⟩ with
      ⟨⟨er, her⟩, _⟩ | ⟨s', t', hs, ht, w1, _, _, _⟩
    · rcases her with her | her <;> (rw [hPT] at her; exact absurd her (by simp))
    · rw [hPT] at hs ht
      simp only [Except.ok.injEq] at hs ht
      subst hs; subst ht
      rw [w1, List.take_length, List.drop_length, List.append_nil]

/-- C6 amended witness: on the sample document with a trailing newline
(4 lines), position (3,0) converts to byte 17 = TextLength, and inserting
there appends. -/
theorem end_of_text_position_witness :
    PositionToByteIndex sampleDocNl ⟨3, 0⟩ = .ok 17 ∧
    (ChangeCtx sitFail sampleDocNl ⟨⟨⟨3, 0⟩, ⟨3, 0⟩⟩, [84]⟩).1.Text
      = (sampleText ++ [10]) ++ [84] :=
  end_of_text_position sampleDocNl sitFail [84]
    ⟨rfl, rfl, by decide, by decide, by decide⟩ (Or.inr (by decide))

/-- C8: if the re-parse requested during `Change`/`UpdateTree` fails, the
document's tree afterwards is exactly the tree it held before the parse
attempt (for `ChangeCtx`, the previous tree carrying its in-place edit
bookkeeping), while the already-applied new text, text length and line index
keep their new values, and the error is returned to the caller. -/
theorem parse_failure_preserves_tree (sit : Sitter τ) (doc : TextDocument τ)
    (e : ChangeEvent) (s t : Nat) (tr : τ)
    (hP : ∀ prev txt, sit.parse prev txt = none) :
    (doc.hasParser = true → UpdateTree sit doc = (doc, some .parseError)) ∧
    (PositionToByteIndex doc e.range.start = .ok s →
     PositionToByteIndex doc e.range.stop = .ok t →
     doc.Tree = some tr → doc.hasParser = true →
     ∀ np, ByteIndexToPoint (UpdateLines { doc with
         Text := doc.Text.take s ++ e.text ++ doc.Text.drop t }) (s + e.text.length)
       = .ok np →
     ChangeCtx sit doc e
       = ({ UpdateLines { doc with
              Text := doc.Text.take s ++ e.text ++ doc.Text.drop t } with
            Tree := some (sit.edit tr ⟨s, t, s + e.text.length,
              ⟨e.range.start.line, s - doc.Lines.getD e.range.start.line 0⟩,
              ⟨e.range.stop.line, t - doc.Lines.getD e.range.stop.line 0⟩, np⟩) },
          some .parseError)) := by
  have hUT : ∀ d : TextDocument τ, d.hasParser = true →
      UpdateTree sit d = (d, some .parseError) := by
    intro d hp
    unfold UpdateTree
    rw [if_neg (by rw [hp]; simp), hP]
  refine ⟨hUT doc, ?_⟩
  intro h1 h2 htr hp np hbp
  unfold ChangeCtx
  rw [h1, h2]
  have hPA : PositionToPoint doc e.range.start
      = .ok ⟨e.range.start.line, s - doc.Lines.getD e.range.start.line 0⟩ := by
    unfold PositionToPoint
    rw [h1]
  have hPB : PositionToPoint doc e.range.stop
      = .ok ⟨e.range.stop.line, t - doc.Lines.getD e.range.stop.line 0⟩ := by
    unfold PositionToPoint
    rw [h2]
  rw [hPA, hPB]
  dsimp only
  set d1 := UpdateLines { doc with Text := doc.Text.take s ++ e.text ++ doc.Text.drop t }
    with hd1
  have hTr : d1.Tree = some tr := htr
  rw [hTr]
  dsimp only
  rw [hbp]
  dsimp only
  rw [hUT _ (show ({ d1 with Tree := some (sit.edit tr ⟨s, t, s + e.text.length,
    ⟨e.range.start.line, s - doc.Lines.getD e.range.start.line 0⟩,
    ⟨e.range.stop.line, t - doc.Lines.getD e.range.stop.line 0⟩,
    np⟩) } : TextDocument τ).hasParser = true from hp)]

/-- C8 witness: a failing parse on the sample document (tree present, parser
set) surfaces the error, keeps the spliced text and edited tree. -/
theorem parse_failure_preserves_tree_witness :
    UpdateTree sitFail sampleDocParsed = (sampleDocParsed, some .parseError) ∧
    ChangeCtx sitFail sampleDocParsed ⟨⟨⟨0, 0⟩, ⟨2, 1⟩⟩, [84, 69, 83, 84]⟩
      = ({ UpdateLines { sampleDocParsed with
             Text := sampleDocParsed.Text.take 0 ++ [84, 69, 83, 84]
               ++ sampleDocParsed.Text.drop 14 } with
           Tree := some (sitFail.edit () ⟨0, 14, 4, ⟨0, 0⟩, ⟨2, 3⟩, ⟨0, 4⟩⟩) },
         some .parseError) :=
  ⟨(parse_failure_preserves_tree sitFail sampleDocParsed ⟨⟨⟨0, 0⟩, ⟨2, 1⟩⟩,
      [84, 69, 83, 84]⟩ 0 14 () (fun _ _ => rfl)).1 rfl,
   (parse_failure_preserves_tree sitFail sampleDocParsed ⟨⟨⟨0, 0⟩, ⟨2, 1⟩⟩,
      [84, 69, 83, 84]⟩ 0 14 () (fun _ _ => rfl)).2 rfl rfl rfl rfl ⟨0, 4⟩ rfl⟩

theorem convertSpec_length (legend : List TokenType) :
    ∀ (l : List ((Position × Position) × Nat)) (prev : Option Position),
    (convertSpec legend prev l).length = 5 * l.length := by
  intro l
  induction l with
  | nil => intro prev; rfl
  | cons h rest ih =>
    intro prev
    obtain ⟨⟨st, ed⟩, cat⟩ := h
    simp only [convertSpec, List.length_cons]
    rw [ih]
    omega

theorem capturePositions_length :
    ∀ (caps : List QueryCapture) (doc : TextDocument τ) pairs doc',
    capturePositions doc caps = .ok (pairs, doc') → pairs.length = caps.length := by
  intro caps
  induction caps with
  | nil =>
    intro doc pairs doc' h
    simp [capturePositions] at h
    rw [h.1]
    rfl
  | cons cap rest ih =>
    intro doc pairs doc' h
    unfold capturePositions at h
    cases hA : PointToPosition doc cap.startPoint with
    | error e => rw [hA] at h; exact absurd h (by simp)
    | ok sd =>
      obtain ⟨st, doc1⟩ := sd
      rw [hA] at h
      dsimp only at h
      cases hB : PointToPosition doc1 cap.endPoint with
      | error e => rw [hB] at h; exact absurd h (by simp)
      | ok ed =>
        obtain ⟨ep, doc2⟩ := ed
        rw [hB] at h
        dsimp only at h
        cases hC : capturePositions doc2 rest with
        | error e => rw [hC] at h; exact absurd h (by simp)
        | ok pr =>
          obtain ⟨ps, doc3⟩ := pr
          rw [hC] at h
          dsimp only at h
          simp only [Except.ok.injEq, Prod.mk.injEq] at h
          obtain ⟨h1, h2⟩ := h
          rw [← h1]
          simp only [List.length_cons]
          rw [ih doc2 ps doc3 hC]

theorem chcLoop_eq_spec (legend : List TokenType) :
    ∀ (caps : List QueryCapture) (doc : TextDocument τ) (prev : Option Position),
    chcLoop legend doc prev caps
      = (capturePositions doc caps).map
          (fun pd => (convertSpec legend prev
            (pd.1.zip (caps.map QueryCapture.index)), pd.2)) := by
  intro caps
  induction caps with
  | nil => intro doc prev; rfl
  | cons cap rest ih =>
    intro doc prev
    unfold chcLoop capturePositions
    cases hA : PointToPosition doc cap.startPoint with
    | error e => rfl
    | ok sd =>
      obtain ⟨st, doc1⟩ := sd
      dsimp only
      cases hB : PointToPosition doc1 cap.endPoint with
      | error e => rfl
      | ok ed =>
        obtain ⟨ep, doc2⟩ := ed
        dsimp only
        rw [ih doc2 (some st)]
        cases hC : capturePositions doc2 rest with
        | error e => rfl
        | ok pr =>
          obtain ⟨ps, doc3⟩ := pr
          rfl

/-- C7: `ConvertHighlightCaptures` emits the delta-encoded token stream of
the captures' absolute positions: five values per capture; the first
capture's line/column absolute; each later capture's line delta-encoded
against the previous capture's start line, its column delta-encoded against
the previous start column only when both captures start on the same line
(absolute otherwise); type/modifiers from the legend entry at the capture's
category index (`convertSpec` states exactly this encoding).  For captures
starting at (0,4), (0,6), (1,4) the emitted positions are (0,4), (0,2),
(1,4). -/
theorem convert_highlight_captures_encoding (doc : TextDocument τ)
    (legend : List TokenType) :
    ConvertHighlightCaptures doc legend
      = (capturePositions doc doc.HighlightCaptures).map
          (fun pd => (convertSpec legend none
            (pd.1.zip (doc.HighlightCaptures.map QueryCapture.index)), pd.2)) ∧
    (∀ ts doc', ConvertHighlightCaptures doc legend = .ok (ts, doc') →
      ts.length = 5 * doc.HighlightCaptures.length) ∧
    (ConvertHighlightCaptures docEnc legendEnc).map Prod.fst
      = .ok [0, 4, 1, 3, 1, 0, 2, 1, 5, 2, 1, 4, 2, 3, 1] := by
  have hmain := chcLoop_eq_spec legend doc.HighlightCaptures doc none
  refine ⟨hmain, ?_, ?_⟩
  · intro ts doc' h
    unfold ConvertHighlightCaptures at h
    rw [hmain] at h
    cases hC : capturePositions doc doc.HighlightCaptures with
    | error e => rw [hC] at h; exact absurd h (by simp [Except.map])
    | ok pr =>
      obtain ⟨ps, doc3⟩ := pr
      rw [hC] at h
      simp only [Except.map, Except.ok.injEq, Prod.mk.injEq] at h
      obtain ⟨hts, _⟩ := h
      rw [← hts, convertSpec_length, List.length_zip, List.length_map,
        capturePositions_length doc.HighlightCaptures doc ps doc3 hC]
      simp
  · simp [ConvertHighlightCaptures, chcLoop, docEnc, legendEnc, digitsText,
      NewTextDocument, UpdateLines, linesOf, splitOnNl, lineOffsets,
      PointToPosition, LineByteIndexToPosition, LineMinMaxByteIndex, lbiWalk,
      decodeRune, usub, Except.map]

/-- C7 witness: the encoded stream of the three-capture example has exactly
five values per capture. -/
theorem convert_highlight_captures_encoding_witness :
    ([0, 4, 1, 3, 1, 0, 2, 1, 5, 2, 1, 4, 2, 3, 1] : List Nat).length
      = 5 * docEnc.HighlightCaptures.length :=
  (convert_highlight_captures_encoding docEnc legendEnc).2.1
    [0, 4, 1, 3, 1, 0, 2, 1, 5, 2, 1, 4, 2, 3, 1]
    { docEnc with lastLineOffset := ⟨1, 17, 6⟩ }
    (by simp [ConvertHighlightCaptures, chcLoop, docEnc, legendEnc, digitsText,
      NewTextDocument, UpdateLines, linesOf, splitOnNl, lineOffsets,
      PointToPosition, LineByteIndexToPosition, LineMinMaxByteIndex, lbiWalk,
      decodeRune, usub])

/-! ### Byte-level decode lemmas (for the non-space span) -/

theorem decodeRune_no_space (s : List Nat) (c k : Nat) (hE : decodeRune s = (c, k))
    (hc1 : c ≠ 0xFFFD) (hc2 : c ≠ 32) : ∀ x ∈ s.take k, x ≠ 32 := by
  cases s with
  | nil =>
    injection hE with h1 h2
    exact (hc1 h1.symm).elim
  | cons b0 rest =>
    simp only [decodeRune] at hE
    repeat' split at hE
    all_goals injection hE with h1 h2
    all_goals (try exact (hc1 h1.symm).elim)
    all_goals (subst h1; subst h2; intro x hx; simp at hx)
    all_goals first
      | (rcases hx with rfl | rfl | rfl | rfl <;> omega)
      | (rcases hx with rfl | rfl | rfl <;> omega)
      | (rcases hx with rfl | rfl <;> omega)
      | (subst hx; omega)

theorem decodeRune_space (s : List Nat) (k : Nat) (hE : decodeRune s = (32, k)) :
    k = 1 ∧ s.getD 0 0 = 32 := by
  cases s with
  | nil => injection hE with h1 h2; omega
  | cons b0 rest =>
    simp only [decodeRune] at hE
    repeat' split at hE
    all_goals injection hE with h1 h2
    all_goals refine ⟨by omega, ?_⟩
    all_goals simp
    all_goals omega

theorem decodeRune_size_le (s : List Nat) : (decodeRune s).2 ≤ s.length := by
  cases s with
  | nil => simp [decodeRune]
  | cons b0 rest =>
    simp only [decodeRune]
    repeat' split
    all_goals simp
    all_goals omega

theorem lastRuneStartIdx_le (s : List Nat) (lim : Nat) : ∀ j k,
    lastRuneStartIdx s lim j = some k → k ≤ j := by
  intro j
  induction j using Nat.strong_induction_on with
  | _ j ih =>
    intro k h
    rw [lastRuneStartIdx] at h
    split at h
    · exact absurd h (by simp)
    · split at h
      · injection h with h1
        omega
      · split at h
        · exact absurd h (by simp)
        · rename_i hj
          have := ih (j - 1) (by omega) k h
          omega

theorem decodeLastRuneStart_le (s : List Nat) (h : s.length ≠ 0) :
    decodeLastRuneStart s ≤ s.length - 1 := by
  unfold decodeLastRuneStart
  split
  · rename_i k hk
    have := lastRuneStartIdx_le s (s.length - 4) (s.length - 2) k hk
    omega
  · split <;> omega

theorem drop_length_sub_one : ∀ (l : List Nat), l ≠ [] →
    l.drop (l.length - 1) = [l.getD (l.length - 1) 0] := by
  intro l
  induction l with
  | nil => intro h; exact absurd rfl h
  | cons a t ih =>
    intro _
    cases t with
    | nil => rfl
    | cons b t2 =>
      have h1 : (a :: b :: t2).length - 1 = ((b :: t2).length - 1) + 1 := by simp
      rw [h1, List.drop_succ_cons, List.getD_cons_succ]
      exact ih (List.cons_ne_nil _ _)

theorem decodeLastRune_decomp (s : List Nat) (c k : Nat)
    (hE : decodeLastRune s = (c, k)) (hc : c ≠ 0xFFFD) :
    1 ≤ k ∧ k ≤ s.length ∧ decodeRune (s.drop (s.length - k)) = (c, k) := by
  rw [decodeLastRune] at hE
  dsimp only at hE
  split at hE
  · injection hE with h1 h2
    exact (hc h1.symm).elim
  · split at hE
    · rename_i hz hb
      injection hE with h1 h2
      subst h1; subst h2
      refine ⟨le_rfl, by omega, ?_⟩
      rw [drop_length_sub_one s (by intro hnil; rw [hnil] at hz; exact hz rfl)]
      rw [decodeRune]
      rw [if_pos hb]
    · split at hE
      · injection hE with h1 h2
        exact (hc h1.symm).elim
      · rename_i hz hb hcond
        push_neg at hcond
        have hk : (decodeRune (s.drop (decodeLastRuneStart s))).2 = k :=
          congrArg Prod.snd hE
        have hst := decodeLastRuneStart_le s hz
        have hlen : 0 < s.length := by omega
        have hstart : s.length - k = decodeLastRuneStart s := by omega
        rw [hstart]
        exact ⟨by omega, by omega, hE⟩

/-- The last `k` bytes of `s` (the ones `decodeLastRune` consumed) contain no
space byte when the decoded rune is valid and not a space. -/
theorem decodeLastRune_no_space (s : List Nat) (c k : Nat)
    (hE : decodeLastRune s = (c, k)) (hc1 : c ≠ 0xFFFD) (hc2 : c ≠ 32) :
    ∀ x ∈ s.drop (s.length - k), x ≠ 32 := by
  obtain ⟨h1, h2, h3⟩ := decodeLastRune_decomp s c k hE hc1
  intro x hx
  refine decodeRune_no_space _ c k h3 hc1 hc2 x ?_
  have hlen : (s.drop (s.length - k)).length = k := by
    rw [List.length_drop]
    omega
  rw [List.take_of_length_le (by omega)]
  exact hx

theorem decodeLastRune_space (s : List Nat) (k : Nat)
    (hE : decodeLastRune s = (32, k)) :
    k = 1 ∧ s.getD (s.length - 1) 0 = 32 ∧ s ≠ [] := by
  obtain ⟨h1, h2, h3⟩ := decodeLastRune_decomp s 32 k hE (by omega)
  obtain ⟨hk1, hfirst⟩ := decodeRune_space _ k h3
  subst hk1
  have hnil : s ≠ [] := by
    intro hn
    rw [hn] at h2
    simp at h2
  rw [drop_length_sub_one s hnil] at hfirst
  exact ⟨rfl, hfirst, hnil⟩

theorem takeWhile_append_all (p : Nat → Bool) (l1 l2 : List Nat)
    (h : ∀ x ∈ l1, p x = true) :
    (l1 ++ l2).takeWhile p = l1 ++ l2.takeWhile p := by
  induction l1 with
  | nil => simp
  | cons a t ih =>
    have ha : p a = true := h a (List.mem_cons_self a t)
    simp only [List.cons_append, List.takeWhile_cons, ha, if_true]
    rw [ih (fun x hx => h x (List.mem_cons_of_mem a hx))]

theorem takeWhile_head_false (p : Nat → Bool) (a : Nat) (l : List Nat)
    (h : p a = false) : (a :: l).takeWhile p = [] := by
  simp [List.takeWhile_cons, h]

/-- The forward walk of `GetNonSpaceTextAroundPosition` consumes exactly the
bytes up to (excluding) the first space byte within `[endB, maxB)`, or all of
them. -/
theorem gnstEnd_spec (text : List Nat) (maxB : Nat) : ∀ endB e2,
    gnstEnd text maxB endB = .ok e2 → endB ≤ maxB →
    endB ≤ e2 ∧ e2 ≤ maxB ∧
    (text.drop endB).take (e2 - endB)
      = ((text.drop endB).take (maxB - endB)).takeWhile (fun b => b ≠ 32) := by
  suffices key : ∀ fuel endB e2, maxB - endB ≤ fuel →
      gnstEnd text maxB endB = .ok e2 → endB ≤ maxB →
      endB ≤ e2 ∧ e2 ≤ maxB ∧
      (text.drop endB).take (e2 - endB)
        = ((text.drop endB).take (maxB - endB)).takeWhile (fun b => b ≠ 32) by
    intro endB e2 h hle
    exact key (maxB - endB) endB e2 le_rfl h hle
  intro fuel
  induction fuel with
  | zero =>
    intro endB e2 hf h hle
    have hEq : endB = maxB := by omega
    rw [gnstEnd, dif_pos (by omega)] at h
    injection h with h1
    subst h1
    rw [hEq]
    simp
  | succ f ih =>
    intro endB e2 hf h hle
    by_cases hge : endB ≥ maxB
    · rw [gnstEnd, dif_pos hge] at h
      injection h with h1
      subst h1
      have hEq : endB = maxB := by omega
      rw [hEq]
      simp
    · rw [gnstEnd, dif_neg hge] at h
      dsimp only at h
      by_cases hd : (decodeRune ((text.drop endB).take (maxB - endB))).1 = 0xFFFD
      · rw [dif_pos hd] at h
        exact absurd h (by simp)
      · rw [dif_neg hd] at h
        by_cases hsp : (decodeRune ((text.drop endB).take (maxB - endB))).1 = 32
        · rw [if_pos hsp] at h
          injection h with h1
          subst h1
          refine ⟨le_rfl, by omega, ?_⟩
          simp only [Nat.sub_self, List.take_zero]
          have hEq2 : decodeRune ((text.drop endB).take (maxB - endB))
              = (32, (decodeRune ((text.drop endB).take (maxB - endB))).2) := by
            rw [← hsp]
          obtain ⟨_, hhead⟩ := decodeRune_space _ _ hEq2
          cases hseg : (text.drop endB).take (maxB - endB) with
          | nil => simp
          | cons a t =>
            rw [hseg] at hhead
            simp only [List.getD_cons_zero] at hhead
            rw [takeWhile_head_false _ a t (by simp [hhead])]
        · rw [if_neg hsp] at h
          set k := (decodeRune ((text.drop endB).take (maxB - endB))).2 with hk
          have hk1 : 1 ≤ k := decodeRune_size_pos _ hd
          have hkle : k ≤ maxB - endB := by
            have h1 := decodeRune_size_le ((text.drop endB).take (maxB - endB))
            have h2 : ((text.drop endB).take (maxB - endB)).length ≤ maxB - endB :=
              List.length_take_le _ _
            omega
          obtain ⟨w1, w2, w3⟩ := ih (endB + k) e2 (by omega) h (by omega)
          refine ⟨by omega, w2, ?_⟩
          have hsplit : e2 - endB = k + (e2 - endB - k) := by omega
          rw [hsplit, List.take_add]
          have hdd : ((text.drop endB).drop k) = text.drop (endB + k) :=
            List.drop_drop k endB text
          rw [hdd]
          have hmsplit : (text.drop endB).take (maxB - endB)
              = ((text.drop endB).take (maxB - endB)).take k
                ++ ((text.drop endB).take (maxB - endB)).drop k := by
            rw [List.take_append_drop]
          rw [hmsplit]
          have htk : ((text.drop endB).take (maxB - endB)).take k
              = (text.drop endB).take k := by
            rw [List.take_take, min_eq_left hkle]
          have hns : ∀ x ∈ ((text.drop endB).take (maxB - endB)).take k,
              (fun b => decide (b ≠ 32)) x = true := by
            intro x hx
            have := decodeRune_no_space ((text.drop endB).take (maxB - endB))
              _ k (by rw [hk]) hd hsp x hx
            simp [this]
          rw [takeWhile_append_all _ _ _ hns, htk]
          congr 1
          have hdt : ((text.drop endB).take (maxB - endB)).drop k
              = (text.drop (endB + k)).take (maxB - endB - k) := by
            rw [List.drop_take, hdd]
          rw [hdt]
          have harith : maxB - endB - k = maxB - (endB + k) := by omega
          have harith2 : e2 - endB - k = e2 - (endB + k) := by omega
          rw [harith, harith2]
          exact w3

/-- The backward walk of `GetNonSpaceTextAroundPosition` consumes exactly the
bytes back to (excluding) the nearest space byte within `[minB, start)`, or
all of them. -/
theorem gnstStart_spec (text : List Nat) (minB : Nat) : ∀ start s,
    gnstStart text minB start = .ok s → minB ≤ start → start ≤ text.length →
    minB ≤ s ∧ s ≤ start ∧
    (text.drop s).take (start - s)
      = (((text.drop minB).take (start - minB)).reverse.takeWhile
          (fun b => b ≠ 32)).reverse := by
  suffices key : ∀ fuel start s, start ≤ fuel →
      gnstStart text minB start = .ok s → minB ≤ start → start ≤ text.length →
      minB ≤ s ∧ s ≤ start ∧
      (text.drop s).take (start - s)
        = (((text.drop minB).take (start - minB)).reverse.takeWhile
            (fun b => b ≠ 32)).reverse by
    intro start s h h1 h2
    exact key start start s le_rfl h h1 h2
  intro fuel
  induction fuel with
  | zero =>
    intro start s hf h h1 h2
    rw [gnstStart, dif_pos (by omega)] at h
    injection h with hs
    subst hs
    have : start = minB := by omega
    subst this
    simp
  | succ f ih =>
    intro start s hf h h1 h2
    by_cases hle : start ≤ minB
    · rw [gnstStart, dif_pos hle] at h
      injection h with hs
      subst hs
      have : start = minB := by omega
      subst this
      simp
    · rw [gnstStart, dif_neg hle] at h
      dsimp only at h
      by_cases hd : (decodeLastRune ((text.drop minB).take (start - minB))).1 = 0xFFFD
      · rw [dif_pos hd] at h
        exact absurd h (by simp)
      · rw [dif_neg hd] at h
        have hplen : ((text.drop minB).take (start - minB)).length = start - minB := by
          rw [List.length_take, List.length_drop]
          omega
        by_cases hsp : (decodeLastRune ((text.drop minB).take (start - minB))).1 = 32
        · rw [if_pos hsp] at h
          injection h with hs
          subst hs
          refine ⟨by omega, le_rfl, ?_⟩
          simp only [Nat.sub_self, List.take_zero]
          have hEq2 : decodeLastRune ((text.drop minB).take (start - minB))
              = (32, (decodeLastRune ((text.drop minB).take (start - minB))).2) := by
            rw [← hsp]
          obtain ⟨_, hlast, hnil⟩ := decodeLastRune_space _ _ hEq2
          have hsplit2 : (text.drop minB).take (start - minB)
              = ((text.drop minB).take (start - minB)).take
                  (((text.drop minB).take (start - minB)).length - 1)
                ++ [((text.drop minB).take (start - minB)).getD
                  (((text.drop minB).take (start - minB)).length - 1) 0] := by
            conv_lhs => rw [← List.take_append_drop
              (((text.drop minB).take (start - minB)).length - 1)
              ((text.drop minB).take (start - minB))]
            rw [drop_length_sub_one _ hnil]
          rw [hsplit2, List.reverse_append, hlast, List.reverse_singleton,
            List.singleton_append]
          rw [takeWhile_head_false _ 32 _ (by simp)]
          rfl
        · rw [if_neg hsp] at h
          set k := (decodeLastRune ((text.drop minB).take (start - minB))).2 with hk
          have hEq2 : decodeLastRune ((text.drop minB).take (start - minB))
              = ((decodeLastRune ((text.drop minB).take (start - minB))).1, k) := by
            rw [hk]
          obtain ⟨hk1, hkle, hdec⟩ := decodeLastRune_decomp _ _ _ hEq2 hd
          rw [hplen] at hkle hdec
          obtain ⟨w1, w2, w3⟩ := ih (start - k) s (by omega) h (by omega) (by omega)
          refine ⟨w1, by omega, ?_⟩
          have hsplit : start - s = (start - k - s) + k := by omega
          rw [hsplit, List.take_add]
          have hdd : (text.drop s).drop (start - k - s) = text.drop (start - k) := by
            rw [List.drop_drop]
            congr 1
            omega
          rw [hdd, w3]
          have hpre : (text.drop minB).take (start - minB)
              = ((text.drop minB).take (start - minB)).take (start - minB - k)
                ++ ((text.drop minB).take (start - minB)).drop (start - minB - k) :=
            (List.take_append_drop _ _).symm
          rw [hpre, List.reverse_append]
          have hlastB : ((text.drop minB).take (start - minB)).drop (start - minB - k)
              = (text.drop (start - k)).take k := by
            rw [List.drop_take, List.drop_drop]
            congr 1
            · omega
            · congr 1
              omega
          have hpre' : ((text.drop minB).take (start - minB)).take (start - minB - k)
              = (text.drop minB).take (start - k - minB) := by
            rw [List.take_take, min_eq_left (by omega)]
            congr 1
            omega
          have hns : ∀ x ∈ (((text.drop minB).take (start - minB)).drop
              (start - minB - k)).reverse, (fun b => decide (b ≠ 32)) x = true := by
            intro x hx
            rw [List.mem_reverse] at hx
            have hidx : start - minB - k = ((text.drop minB).take (start - minB)).length - k := by
              omega
            rw [hidx] at hx
            have := decodeLastRune_no_space _ _ _ hEq2 hd hsp x hx
            simp [this]
          rw [takeWhile_append_all _ _ _ hns, List.reverse_append, List.reverse_reverse]
          rw [hlastB, hpre']

/-- C10: for every position whose conversion to byte offset `b` succeeds,
`GetNonSpaceTextAroundPosition` returns the substring of the position's line
obtained by extending from `b` leftwards and rightwards until a space byte or
the line's bounds (excluding the delimiting spaces, never leaving the line's
byte range, with only the space character 0x20 delimiting). -/
theorem get_non_space_text_around (doc : TextDocument τ) (pos : Position)
    (b : Nat) (r : List Nat) (hWf : Wf doc)
    (hb : PositionToByteIndex doc pos = .ok b)
    (h : GetNonSpaceTextAroundPosition doc pos = .ok r) :
    r = spanAround ((doc.Text.drop (doc.Lines.getD pos.line 0)).take
          (lineMaxD doc pos.line - doc.Lines.getD pos.line 0))
        (b - doc.Lines.getD pos.line 0) := by
  obtain ⟨hL, hT, hC⟩ := hWf
  obtain ⟨hl, hchain, hmax⟩ := PositionToByteIndex_ok hL hT hb
  have hminb : doc.Lines.getD pos.line 0 ≤ b := walkN_le doc.Text hchain
  have hmaxlen : lineMaxD doc pos.line ≤ doc.Text.length := lineMaxD_le doc hL hT pos.line
  have hminmax : doc.Lines.getD pos.line 0 ≤ lineMaxD doc pos.line :=
    lineStart_le_lineMaxD doc hL hT pos.line hl
  unfold GetNonSpaceTextAroundPosition at h
  rw [hb] at h
  dsimp only at h
  have hLMM : LineMinMaxByteIndex doc pos.line
      = .ok (doc.Lines.getD pos.line 0, lineMaxD doc pos.line) := by
    unfold LineMinMaxByteIndex
    rw [if_neg (by push_neg; exact hl)]
    rfl
  rw [hLMM] at h
  dsimp only at h
  cases hS : gnstStart doc.Text (doc.Lines.getD pos.line 0) b with
  | error e => rw [hS] at h; exact absurd h (by simp)
  | ok s =>
    rw [hS] at h
    dsimp only at h
    cases hE2 : gnstEnd doc.Text (lineMaxD doc pos.line) b with
    | error e => rw [hE2] at h; exact absurd h (by simp)
    | ok e2 =>
      rw [hE2] at h
      dsimp only at h
      injection h with hr
      subst hr
      obtain ⟨q1, q2, q3⟩ := gnstStart_spec doc.Text (doc.Lines.getD pos.line 0) b s hS
        hminb (by omega)
      obtain ⟨w1, w2, w3⟩ := gnstEnd_spec doc.Text (lineMaxD doc pos.line) b e2 hE2 hmax
      unfold spanAround
      have hsplit : e2 - s = (b - s) + (e2 - b) := by omega
      rw [hsplit, List.take_add]
      have hdd : (doc.Text.drop s).drop (b - s) = doc.Text.drop b := by
        rw [List.drop_drop]
        congr 1
        omega
      rw [hdd]
      have hinner1 : ((doc.Text.drop (doc.Lines.getD pos.line 0)).take
            (lineMaxD doc pos.line - doc.Lines.getD pos.line 0)).take
            (b - doc.Lines.getD pos.line 0)
          = (doc.Text.drop (doc.Lines.getD pos.line 0)).take
            (b - doc.Lines.getD pos.line 0) := by
        rw [List.take_take, min_eq_left (by omega)]
      have hinner2 : ((doc.Text.drop (doc.Lines.getD pos.line 0)).take
            (lineMaxD doc pos.line - doc.Lines.getD pos.line 0)).drop
            (b - doc.Lines.getD pos.line 0)
          = (doc.Text.drop b).take (lineMaxD doc pos.line - b) := by
        rw [List.drop_take, List.drop_drop]
        congr 1
        · omega
        · congr 1
          omega
      rw [hinner1, hinner2, q3, w3]

/-- C10 witness: around position (1,1) of `"asd\nwer zxc"` (byte 5), the
result is `"wer"`, the space-delimited span of that line. -/
theorem get_non_space_text_around_witness :
    ([119, 101, 114] : List Nat)
      = spanAround ((docNS.Text.drop (docNS.Lines.getD 1 0)).take
          (lineMaxD docNS 1 - docNS.Lines.getD 1 0)) (5 - docNS.Lines.getD 1 0) :=
  get_non_space_text_around docNS ⟨1, 1⟩ 5 [119, 101, 114]
    ⟨rfl, rfl, by decide, by decide, by decide⟩ rfl
    (by simp [GetNonSpaceTextAroundPosition, LineMinMaxByteIndex, docNS,
      NewTextDocument, UpdateLines, linesOf, splitOnNl, lineOffsets,
      PositionToByteIndex, ptbiWalk, gnstStart, gnstEnd, decodeLastRune,
      decodeLastRuneStart, lastRuneStartIdx, runeStart, decodeRune])

end TextDoc
